import Mathlib

/-!
Verification development for the kproto typed binary codec
(`src/proto/primitive.py`, `src/proto/primitives.py`, `src/proto/complex.py`).

Modelling conventions:
* byte strings are `List Nat` whose entries are below 256;
* Python `int` is `Int`; text (`str`) is a `List Nat` of Unicode code points;
* Python float values of the three float primitives are modelled at the wire
  precision of their own type, i.e. by the bit pattern (a `Nat` below the
  type's width) that `struct.pack` writes; `struct.pack` is the identity on
  such values, and `struct.unpack` returns exactly the stored pattern;
* a raised Python exception is `Option.none` / `Except.error`; a normal
  return is `some` / `ok`.
-/

namespace KProto

/-- Little-endian byte string of a natural number, `n` bytes wide: models
Python `int.to_bytes(n, byteorder="little")` applied to an in-range value. -/
def toLE : Nat → Nat → List Nat
  | 0, _ => []
  | n + 1, v => v % 256 :: toLE n (v / 256)

/-- Unsigned value of a little-endian byte string: models Python
`int.from_bytes(data, byteorder="little")`.  Note that Python happily
accepts a byte string of any length, including the empty one (value 0). -/
def fromLE : List Nat → Nat
  | [] => 0
  | b :: bs => b + 256 * fromLE bs

/-- Signed value of a little-endian byte string: models Python
`int.from_bytes(data, byteorder="little", signed=True)`, which interprets
whatever byte string it is handed (of any length) as two's complement. -/
def sfromLE (bs : List Nat) : Int :=
  if fromLE bs < 2 ^ (8 * bs.length - 1) then (fromLE bs : Int)
  else (fromLE bs : Int) - 2 ^ (8 * bs.length)

/-- Unicode scalar values: code points encodable by Python's utf-8 codec. -/
def validScalar (c : Nat) : Bool :=
  decide (c < 0xD800) || (decide (0xE000 ≤ c) && decide (c < 0x110000))

/-- UTF-8 bytes of one scalar value (as produced by `str.encode("utf8")`). -/
def utf8EncodeChar (c : Nat) : List Nat :=
  if c < 0x80 then [c]
  else if c < 0x800 then [0xC0 + c / 64, 0x80 + c % 64]
  else if c < 0x10000 then [0xE0 + c / 4096, 0x80 + c / 64 % 64, 0x80 + c % 64]
  else [0xF0 + c / 262144, 0x80 + c / 4096 % 64, 0x80 + c / 64 % 64, 0x80 + c % 64]

/-- Models `str.encode("utf8")`: fails (raises) on lone surrogates. -/
def utf8Encode : List Nat → Option (List Nat)
  | [] => some []
  | c :: cs =>
    if validScalar c then (utf8Encode cs).map (utf8EncodeChar c ++ ·) else none

/-- A UTF-8 continuation byte. -/
def contB (x : Nat) : Bool := decide (0x80 ≤ x) && decide (x < 0xC0)

/-- Validity of a 2-byte UTF-8 sequence after a lead byte in 0xC2-0xDF. -/
def seq2OK (b1 : Nat) : Bool := contB b1

/-- Validity of a 3-byte UTF-8 sequence: continuation bytes, no overlong
encoding (lead 0xE0 needs a second byte of at least 0xA0) and no surrogate
(lead 0xED forbids a second byte of 0xA0 or more). -/
def seq3OK (b b1 b2 : Nat) : Bool :=
  contB b1 && contB b2 && !(decide (b = 0xE0) && decide (b1 < 0xA0))
    && !(decide (b = 0xED) && decide (0xA0 ≤ b1))

/-- Validity of a 4-byte UTF-8 sequence: continuation bytes, no overlong
encoding (lead 0xF0 needs a second byte of at least 0x90) and nothing past
U+10FFFF (lead 0xF4 forbids a second byte of 0x90 or more). -/
def seq4OK (b b1 b2 b3 : Nat) : Bool :=
  contB b1 && contB b2 && contB b3 && !(decide (b = 0xF0) && decide (b1 < 0x90))
    && !(decide (b = 0xF4) && decide (0x90 ≤ b1))

/-- Code point of a 2-byte UTF-8 sequence. -/
def dec2 (b b1 : Nat) : Nat := (b - 0xC0) * 64 + (b1 - 0x80)

/-- Code point of a 3-byte UTF-8 sequence. -/
def dec3 (b b1 b2 : Nat) : Nat :=
  (b - 0xE0) * 4096 + (b1 - 0x80) * 64 + (b2 - 0x80)

/-- Code point of a 4-byte UTF-8 sequence. -/
def dec4 (b b1 b2 b3 : Nat) : Nat :=
  (b - 0xF0) * 262144 + (b1 - 0x80) * 4096 + (b2 - 0x80) * 64 + (b3 - 0x80)

mutual

/-- Models `bytes.decode("utf8")` with strict error handling: rejects
continuation-byte starts, truncated sequences, overlong encodings,
surrogates and code points beyond U+10FFFF.  The helpers `utf8Dec2/3/4`
consume the continuation bytes of one 2-, 3- or 4-byte sequence whose lead
byte is `b`. -/
def utf8Decode : List Nat → Option (List Nat)
  | [] => some []
  | b :: bs =>
    if b < 0x80 then (utf8Decode bs).map (b :: ·)
    else if b < 0xC2 then none
    else if b < 0xE0 then utf8Dec2 b bs
    else if b < 0xF0 then utf8Dec3 b bs
    else if b < 0xF5 then utf8Dec4 b bs
    else none
termination_by l => l.length

def utf8Dec2 (b : Nat) : List Nat → Option (List Nat)
  | b1 :: bs1 =>
    if seq2OK b1 then (utf8Decode bs1).map (dec2 b b1 :: ·) else none
  | [] => none
termination_by bs => bs.length

def utf8Dec3 (b : Nat) : List Nat → Option (List Nat)
  | b1 :: b2 :: bs1 =>
    if seq3OK b b1 b2 then (utf8Decode bs1).map (dec3 b b1 b2 :: ·) else none
  | _ => none
termination_by bs => bs.length

def utf8Dec4 (b : Nat) : List Nat → Option (List Nat)
  | b1 :: b2 :: b3 :: bs1 =>
    if seq4OK b b1 b2 b3 then (utf8Decode bs1).map (dec4 b b1 b2 b3 :: ·)
    else none
  | _ => none
termination_by bs => bs.length

end

/-- The primitive types of `src/proto/primitives.py`.  `array t` is the
dynamically created class `Array[t]`. -/
inductive PType where
  | int8 | int16 | int32 | int64
  | uint8 | uint16 | uint32 | uint64
  | boolean
  | e | float | double
  | char
  | str
  | array (elem : PType)
deriving DecidableEq

/-- Values of primitive types.  `vint` covers all the `int` subclasses
(signed, unsigned, Boolean); `vflt w p` is a float value of wire width `w`
bytes given by bit pattern `p`; `vstr` covers `Char` and `String` (a list
of code points); `varr` is an `Array` value. -/
inductive PVal where
  | vint (v : Int)
  | vflt (width : Nat) (pattern : Nat)
  | vstr (chars : List Nat)
  | varr (elems : List PVal)

/-- Models `int.to_bytes(n, byteorder="little", signed=True)`:
bytes of the two's complement representation, or an OverflowError
(`none`) when the value does not fit in `n` bytes. -/
def serSInt (n : Nat) (v : Int) : Option (List Nat) :=
  if -(2 ^ (8 * n - 1) : Int) ≤ v ∧ v < 2 ^ (8 * n - 1) then
    some (toLE n (v % (2 ^ (8 * n) : Int)).toNat)
  else none

/-- Models `int.to_bytes(n, byteorder="little")` (unsigned):
an OverflowError (`none`) when the value is negative or does not fit. -/
def serUInt (n : Nat) (v : Int) : Option (List Nat) :=
  if 0 ≤ v ∧ v < (2 ^ (8 * n) : Int) then some (toLE n v.toNat) else none

/-- Models `struct.pack(fmt, x)` for the float formats at wire width `n`:
on a value of the type's own precision it writes the value's bit pattern. -/
def serFlt (n w p : Nat) : Option (List Nat) :=
  if w = n ∧ p < 2 ^ (8 * n) then some (toLE n p) else none

/-- Models `struct.unpack(fmt, data[:n])[0]`: `struct.error` (`none`) when the
sliced buffer is shorter than the format requires, else the stored pattern. -/
def deserFlt (n : Nat) (data : List Nat) : Option PVal :=
  if data.length < n then none else some (.vflt n (fromLE (data.take n)))

/-- One measuring loop `for ...: length += f(data[length:])`, run once per
entry of `fs` on the fixed buffer `data`, starting from offset `len`.
`Array.measure` runs the body `count` times with `f = elem.measure`
(the list is `replicate count _`); `ComplexMappedType.measure` runs it once
per field-map entry with that field's measure. -/
def measLoop : List (List Nat → Nat) → List Nat → Nat → Nat
  | [], _, len => len
  | f :: fs, data, len => measLoop fs data (len + f (data.drop len))

/-- One decoding loop
`items.append(d(data[offset:])); offset += m(data[offset:])`, run once per
`(d, m)` pair in `fs` on the fixed buffer `data`, starting at `off`.
A failing `d` propagates (the Python exception aborts the call). -/
def deserLoop :
    List ((List Nat → Option PVal) × (List Nat → Nat)) → List Nat → Nat →
      Option (List PVal)
  | [], _, _ => some []
  | (df, mf) :: fs, data, off => do
    let v ← df (data.drop off)
    let rest ← deserLoop fs data (off + mf (data.drop off))
    pure (v :: rest)

/-- The `measure` classmethods of `src/proto/primitives.py`.  Fixed-size
types return their `size`; `Char.measure` is the constant 1; `String.measure`
reads the 2-byte length header and adds 2; `Array.measure` reads the 1-byte
count (`UInt8.deserialize(data)`), then starting at offset
`UInt8.measure(data) = 1` repeatedly adds the element measure of the
remaining buffer. -/
def PType.measure : PType → List Nat → Nat
  | .int8, _ | .uint8, _ | .boolean, _ | .char, _ => 1
  | .int16, _ | .uint16, _ | .e, _ => 2
  | .int32, _ | .uint32, _ | .float, _ => 4
  | .int64, _ | .uint64, _ | .double, _ => 8
  | .str, data => fromLE (data.take 2) + 2
  | .array t, data =>
    measLoop (List.replicate (fromLE (data.take 1)) t.measure) data 1
termination_by t _ => sizeOf t

/-- The `serialize` methods of `src/proto/primitives.py`, applied to a value
of the respective type (a value of the wrong shape is refused).
Signed and unsigned integers use `to_bytes` at the class's `size`;
`Boolean.serialize` is `to_bytes` with the default length 1; floats pack at
their format's width; `Char.serialize` is `self[0].encode("utf8")` (an empty
`Char` cannot be serialized); `String.serialize` is a 2-byte length header
(OverflowError past 65535) plus the utf-8 bytes; `Array.serialize` is
`UInt8(len(self)).serialize()` (OverflowError past 255) plus the
concatenated element encodings. -/
def PType.serialize : PType → PVal → Option (List Nat)
  | .int8, .vint v => serSInt 1 v
  | .int16, .vint v => serSInt 2 v
  | .int32, .vint v => serSInt 4 v
  | .int64, .vint v => serSInt 8 v
  | .uint8, .vint v => serUInt 1 v
  | .uint16, .vint v => serUInt 2 v
  | .uint32, .vint v => serUInt 4 v
  | .uint64, .vint v => serUInt 8 v
  | .boolean, .vint v => serUInt 1 v
  | .e, .vflt w p => serFlt 2 w p
  | .float, .vflt w p => serFlt 4 w p
  | .double, .vflt w p => serFlt 8 w p
  | .char, .vstr cs =>
    match cs with
    | [] => none
    | c :: _ => if validScalar c then some (utf8EncodeChar c) else none
  | .str, .vstr cs =>
    (utf8Encode cs).bind fun enc =>
      if enc.length < 65536 then some (toLE 2 enc.length ++ enc) else none
  | .array t, .varr es =>
    if es.length < 256 then
      (es.mapM t.serialize).map fun bss => es.length :: bss.flatten
    else none
  | _, _ => none
termination_by t _ => sizeOf t

/-- The `deserialize` classmethods of `src/proto/primitives.py`.
Integer types read `from_bytes(data[:size])` — Python's slicing and
`from_bytes` accept a short (even empty) buffer, so these never fail;
`Boolean.deserialize` reads `from_bytes(data)` on the WHOLE buffer;
floats unpack `data[:size]` (`struct.error` when short);
`Char.deserialize` is `cls(chr(data[0]))` (IndexError on empty buffer);
`String.deserialize` decodes `data[2:measure(data)]`;
`Array.deserialize` first truncates the buffer to its measure, reads the
1-byte count, then decodes count elements, advancing by element measures. -/
def PType.deserialize : PType → List Nat → Option PVal
  | .int8, data => some (.vint (sfromLE (data.take 1)))
  | .int16, data => some (.vint (sfromLE (data.take 2)))
  | .int32, data => some (.vint (sfromLE (data.take 4)))
  | .int64, data => some (.vint (sfromLE (data.take 8)))
  | .uint8, data => some (.vint (fromLE (data.take 1)))
  | .uint16, data => some (.vint (fromLE (data.take 2)))
  | .uint32, data => some (.vint (fromLE (data.take 4)))
  | .uint64, data => some (.vint (fromLE (data.take 8)))
  | .boolean, data => some (.vint (fromLE data))
  | .e, data => deserFlt 2 data
  | .float, data => deserFlt 4 data
  | .double, data => deserFlt 8 data
  | .char, data =>
    match data with
    | [] => none
    | b :: _ => some (.vstr [b])
  | .str, data =>
    (utf8Decode ((data.take (PType.measure .str data)).drop 2)).map .vstr
  | .array t, data =>
    let d := data.take (PType.measure (.array t) data)
    (deserLoop (List.replicate (fromLE (d.take 1)) (t.deserialize, t.measure))
        d 1).map .varr
termination_by t _ => sizeOf t

/-- Exponent field width of the IEEE-754 format that is `n` bytes wide. -/
def expBits : Nat → Nat
  | 2 => 5
  | 4 => 8
  | 8 => 11
  | _ => 0

/-- Fraction field width of the IEEE-754 format that is `n` bytes wide. -/
def fracBits : Nat → Nat
  | 2 => 10
  | 4 => 23
  | 8 => 52
  | _ => 0

/-- NaN bit patterns of the `n`-byte IEEE-754 format: exponent all ones and
a nonzero fraction. -/
def isNaNPat (n p : Nat) : Bool :=
  decide ((p / 2 ^ fracBits n) % 2 ^ expBits n = 2 ^ expBits n - 1) &&
    decide (p % 2 ^ fracBits n ≠ 0)

/-- Positive or negative zero patterns of the `n`-byte IEEE-754 format. -/
def isZeroPat (n p : Nat) : Bool :=
  decide (p % 2 ^ (8 * n - 1) = 0)

/-- Python `==` on primitive values of like kinds: integers by value,
strings and arrays structurally, floats by IEEE-754 comparison of the
stored patterns (NaN is unequal to everything, +0.0 equals -0.0).
Numeric comparison across int and float kinds is not needed by any claim
and is not modelled. -/
def pvalEq : PVal → PVal → Bool
  | .vint a, .vint b => a == b
  | .vflt w p, .vflt w' q =>
    w == w' && !isNaNPat w p && !isNaNPat w' q
      && (p == q || (isZeroPat w p && isZeroPat w' q))
  | .vstr a, .vstr b => a == b
  | .varr [], .varr [] => true
  | .varr (x :: xs), .varr (y :: ys) =>
    pvalEq x y && pvalEq (.varr xs) (.varr ys)
  | _, _ => false
termination_by a _ => sizeOf a

/-- Well-formed values of each primitive type: exactly the values the type
can construct and serialize without an error.  Integers must fit in the
width; a float value carries its own type's width and pattern; a `Char` is a
non-empty string whose leading character the utf-8 codec accepts; a `String`
must encode to at most 65535 bytes; an `Array` has at most 255 elements,
all well-formed at the element type. -/
def pwf : PType → PVal → Bool
  | .int8, .vint v => decide (-(2 ^ 7 : Int) ≤ v ∧ v < 2 ^ 7)
  | .int16, .vint v => decide (-(2 ^ 15 : Int) ≤ v ∧ v < 2 ^ 15)
  | .int32, .vint v => decide (-(2 ^ 31 : Int) ≤ v ∧ v < 2 ^ 31)
  | .int64, .vint v => decide (-(2 ^ 63 : Int) ≤ v ∧ v < 2 ^ 63)
  | .uint8, .vint v => decide (0 ≤ v ∧ v < (2 ^ 8 : Int))
  | .uint16, .vint v => decide (0 ≤ v ∧ v < (2 ^ 16 : Int))
  | .uint32, .vint v => decide (0 ≤ v ∧ v < (2 ^ 32 : Int))
  | .uint64, .vint v => decide (0 ≤ v ∧ v < (2 ^ 64 : Int))
  | .boolean, .vint v => decide (0 ≤ v ∧ v < (2 ^ 8 : Int))
  | .e, .vflt w p => w == 2 && decide (p < 2 ^ 16)
  | .float, .vflt w p => w == 4 && decide (p < 2 ^ 32)
  | .double, .vflt w p => w == 8 && decide (p < 2 ^ 64)
  | .char, .vstr cs =>
    match cs with
    | [] => false
    | c :: _ => validScalar c
  | .str, .vstr cs =>
    match utf8Encode cs with
    | some enc => decide (enc.length ≤ 65535)
    | none => false
  | .array t, .varr es => decide (es.length ≤ 255) && es.all (pwf t)
  | _, _ => false
termination_by t _ => sizeOf t

/-- Restriction under which `measure` matches the serialized length:
every `Char` reachable inside the value (also as an array element) has a
leading character whose utf-8 encoding is a single byte.  `Char.measure`
always reports 1, so a multi-byte leading character breaks measuring. -/
def asciiOK : PType → PVal → Bool
  | .char, .vstr cs =>
    match cs with
    | c :: _ => decide (c < 128)
    | [] => true
  | .array t, .varr es => es.all (asciiOK t)
  | _, _ => true
termination_by t _ => sizeOf t

/-- Restriction under which the decode of an encode gives back an equal
value: every reachable `Char` is a single one-byte character (decoding reads
exactly one byte and only keeps one character); no reachable float is NaN
(NaN compares unequal to its decode); Boolean may sit under an `Array` only
when that array has at most one element, because `Boolean.deserialize`
consumes the whole remaining buffer rather than one byte. -/
def rtOK : PType → PVal → Bool
  | .char, .vstr cs =>
    match cs with
    | [c] => decide (c < 128)
    | _ => false
  | .e, .vflt _ p => !isNaNPat 2 p
  | .float, .vflt _ p => !isNaNPat 4 p
  | .double, .vflt _ p => !isNaNPat 8 p
  | .array .boolean, .varr es => decide (es.length ≤ 1)
  | .array t, .varr es => es.all (rtOK t)
  | _, _ => true
termination_by t _ => sizeOf t

/-- A value stored in a composite's field slot before serialization: either
an already-constructed primitive instance (of its own class `t`, which need
not be the declared field type), or a raw host value of type `R`. -/
inductive FieldStored (R : Type) where
  | inst (t : PType) (v : PVal)
  | raw (r : R)

/-- Models `ComplexMappedType.serialize` (src/proto/complex.py): walk the
field map in order; a field value that is already a primitive instance is
encoded by its own class; otherwise the declared field type's constructor is
applied first (`ctor`, which may fail like any Python constructor), then
that instance is encoded; the per-field byte strings are concatenated.
Field values are passed positionally, aligned with the field map; a missing
field value is an AttributeError (`none`). -/
def ComplexMappedType.serialize {R : Type} (ctor : PType → R → Option PVal) :
    List (String × PType) → List (FieldStored R) → Option (List Nat)
  | [], _ => some []
  | _ :: _, [] => none
  | (_, t) :: map, s :: stored => do
    let bs ←
      match s with
      | .inst t' v => t'.serialize v
      | .raw r => (ctor t r).bind t.serialize
    let rest ← ComplexMappedType.serialize ctor map stored
    pure (bs ++ rest)

/-- Models `ComplexMappedType.measure`: starting from `length = 0`, add each
mapped field type's measure of `data[length:]` in field-map order. -/
def ComplexMappedType.measure (map : List (String × PType)) (data : List Nat) :
    Nat :=
  measLoop (map.map fun nt => nt.2.measure) data 0

/-- Models `ComplexMappedType.deserialize`: truncate the buffer to
`measure(data)`, then walk the field map, decoding each field from the
remaining slice and advancing the offset by that field's measure; the
collected field values build the composite value. -/
def ComplexMappedType.deserialize (map : List (String × PType))
    (data : List Nat) : Option (List PVal) :=
  let d := data.take (ComplexMappedType.measure map data)
  deserLoop (map.map fun nt => (nt.2.deserialize, nt.2.measure)) d 0

/-- Field slots holding already-constructed instances of exactly the
declared field types (the common, type-conforming case). -/
def instFieldsOf (map : List (String × PType)) (vs : List PVal) :
    List (FieldStored Empty) :=
  (map.zip vs).map fun p => .inst p.1.2 p.2

/-- Trivial constructor argument for composites whose fields are all stored
as instances: there are no raw values to coerce. -/
def deadCtor : PType → Empty → Option PVal := fun _ r => r.elim

/-- Field values aligned with a field map, each well-formed and within the
round-trip restriction of `rtOK`. -/
def cfieldsOK : List (String × PType) → List PVal → Bool
  | [], [] => true
  | (_, t) :: map, v :: vs => pwf t v && rtOK t v && cfieldsOK map vs
  | _, _ => false

/-- Field values aligned with a field map, each well-formed and within the
measuring restriction of `asciiOK`. -/
def cfieldsAsciiOK : List (String × PType) → List PVal → Bool
  | [], [] => true
  | (_, t) :: map, v :: vs => pwf t v && asciiOK t v && cfieldsAsciiOK map vs
  | _, _ => false

/-- No field other than the last is declared Boolean.  A Boolean field that
is followed by further fields decodes from the whole remaining buffer
(see `PType.deserialize`), so only a trailing Boolean field decodes
correctly inside a composite. -/
def noMidBool : List (String × PType) → Bool
  | [] => true
  | [_] => true
  | (_, t) :: f :: map => decide (t ≠ .boolean) && noMidBool (f :: map)

/-- An element handed to the `Array` constructor: either already an instance
of the array's element type, or some other value of host type `R`. -/
inductive ArrItem (R : Type) where
  | inst (v : PVal)
  | raw (r : R)

/-- Models `Array.__init__` (src/proto/primitives.py): walk the items in
order; an item that is already an instance of the element type `T` is kept
unchanged; any other item is coerced by calling the element type's
constructor (`ctor`); the first item whose coercion raises turns into a
TypeError naming the expected type and the received item's kind. -/
def Array.init {R : Type} (T : PType) (ctor : R → Option PVal)
    (kindOf : R → String) : List (ArrItem R) → Except (PType × String) (List PVal)
  | [] => .ok []
  | .inst v :: rest => (Array.init T ctor kindOf rest).map (v :: ·)
  | .raw r :: rest =>
    match ctor r with
    | some v => (Array.init T ctor kindOf rest).map (v :: ·)
    | none => .error (T, kindOf r)

/-- Models `ComplexDataType.__eq__` between two values that both satisfy the
mapped-type contract: walk the receiver's field map and compare the two
attribute values under each mapped name with Python `==`; attributes outside
the map are never consulted. -/
def ComplexDataType.eq (map : List String) (a b : String → PVal) : Bool :=
  map.all fun attr => pvalEq (a attr) (b attr)

/-- Models the `Array.pop` override: CPython `list.pop` normalizes a
negative index by adding the length, raises IndexError (`none`) when the
normalized index is out of range, and otherwise removes the element at that
index — but the override discards `super().pop(...)`'s result and returns
Python `None` (the first component) instead of the removed element. -/
def Array.pop (l : List PVal) (idx : Int) : Option (Option PVal × List PVal) :=
  let j : Int := if idx < 0 then (l.length : Int) + idx else idx
  if 0 ≤ j ∧ j < (l.length : Int) then
    some (none, l.take j.toNat ++ l.drop (j.toNat + 1))
  else none

/-- Stated from the spec wording of claim C4: a single field's own encoding —
the field value's own `serialize` when it is already a primitive instance,
else `primitiveType(value).serialize()`.  Used to compare the serializer
against the spec's per-field description. -/
def specFieldEncoding {R : Type} (ctor : PType → R → Option PVal) (t : PType) :
    FieldStored R → Option (List Nat)
  | .inst t' v => t'.serialize v
  | .raw r => (ctor t r).bind t.serialize

/-- Stated from the spec wording of claim C5: read the 1-byte count, then
repeatedly call the element measure on the remaining buffer, advancing the
offset, without decoding element values. -/
def specArrayMeasure (f : List Nat → Nat) : Nat → List Nat → Nat → Nat
  | 0, _, off => off
  | n + 1, data, off => specArrayMeasure f n data (off + f (data.drop off))

/-! ### Little-endian encoding lemmas -/

theorem toLE_length (n u : Nat) : (toLE n u).length = n := by
  induction n generalizing u with
  | zero => simp [toLE]
  | succ n ih => simp [toLE, ih]

theorem fromLE_toLE (n u : Nat) (h : u < 2 ^ (8 * n)) : fromLE (toLE n u) = u := by
  induction n generalizing u with
  | zero =>
    have : u = 0 := by simpa using h
    simp [this, toLE, fromLE]
  | succ n ih =>
    have hpow : 2 ^ (8 * (n + 1)) = 2 ^ (8 * n) * 256 := by
      have h8 : 8 * (n + 1) = 8 * n + 8 := by omega
      rw [h8, pow_add]
      norm_num
    rw [hpow] at h
    have hdiv : u / 256 < 2 ^ (8 * n) := by omega
    simp only [toLE, fromLE, ih _ hdiv]
    omega

theorem fromLE_lt (bs : List Nat) (h : ∀ b ∈ bs, b < 256) :
    fromLE bs < 2 ^ (8 * bs.length) := by
  induction bs with
  | nil => simp [fromLE]
  | cons b bs ih =>
    have hb : b < 256 := h b (by simp)
    have htail := ih (fun x hx => h x (by simp [hx]))
    have hpow : 2 ^ (8 * (b :: bs).length) = 2 ^ (8 * bs.length) * 256 := by
      have h8 : 8 * (b :: bs).length = 8 * bs.length + 8 := by
        simp [List.length_cons]
        omega
      rw [h8, pow_add]
      norm_num
    rw [hpow]
    simp only [fromLE]
    omega

theorem sfromLE_toLE (n : Nat) (hn : 0 < n) (v : Int)
    (h1 : -(2 ^ (8 * n - 1) : Int) ≤ v) (h2 : v < 2 ^ (8 * n - 1)) :
    sfromLE (toLE n (v % (2 ^ (8 * n) : Int)).toNat) = v := by
  have hsucc : 8 * n - 1 + 1 = 8 * n := by omega
  have hNM : (2 : Nat) ^ (8 * n) = 2 * 2 ^ (8 * n - 1) := by
    calc (2 : Nat) ^ (8 * n) = 2 ^ (8 * n - 1 + 1) := by rw [hsucc]
    _ = 2 ^ (8 * n - 1) * 2 := pow_succ 2 _
    _ = 2 * 2 ^ (8 * n - 1) := by ring
  have hNMi : (2 : Int) ^ (8 * n) = 2 * 2 ^ (8 * n - 1) := by
    calc (2 : Int) ^ (8 * n) = 2 ^ (8 * n - 1 + 1) := by rw [hsucc]
    _ = 2 ^ (8 * n - 1) * 2 := pow_succ 2 _
    _ = 2 * 2 ^ (8 * n - 1) := by ring
  have hMpos : (0 : Int) < 2 ^ (8 * n - 1) := by positivity
  rcases le_or_lt 0 v with hv | hv
  · -- nonnegative: the two's complement bytes are just the bytes of v
    have hmod : v % (2 ^ (8 * n) : Int) = v := Int.emod_eq_of_lt hv (by omega)
    rw [hmod]
    have hcast : (v.toNat : Int) = v := Int.toNat_of_nonneg hv
    have hlt : v.toNat < 2 ^ (8 * n) := by
      zify
      omega
    have hltM : v.toNat < 2 ^ (8 * n - 1) := by
      zify
      omega
    unfold sfromLE
    rw [fromLE_toLE n _ hlt, toLE_length, if_pos hltM]
    exact hcast
  · -- negative: the bytes are those of v + 2^(8n)
    have h0 : (0 : Int) ≤ v + 2 ^ (8 * n) := by omega
    have hltN : v + 2 ^ (8 * n) < 2 ^ (8 * n) := by omega
    have hmod : v % (2 ^ (8 * n) : Int) = v + 2 ^ (8 * n) := by
      have h' : (v + 2 ^ (8 * n) * 1) % (2 ^ (8 * n) : Int) = v % 2 ^ (8 * n) :=
        Int.add_mul_emod_self_left v (2 ^ (8 * n)) 1
      rw [mul_one] at h'
      rw [← h', Int.emod_eq_of_lt h0 (by omega)]
    rw [hmod]
    have hcast : ((v + 2 ^ (8 * n)).toNat : Int) = v + 2 ^ (8 * n) :=
      Int.toNat_of_nonneg h0
    have hultN : (v + 2 ^ (8 * n)).toNat < 2 ^ (8 * n) := by
      zify
      omega
    have hugeM : ¬ (v + 2 ^ (8 * n)).toNat < 2 ^ (8 * n - 1) := by
      zify
      omega
    unfold sfromLE
    rw [fromLE_toLE n _ hultN, toLE_length, if_neg hugeM]
    omega

theorem toLE_bytes_lt (n u : Nat) : ∀ b ∈ toLE n u, b < 256 := by
  induction n generalizing u with
  | zero => simp [toLE]
  | succ n ih =>
    intro b hb
    simp only [toLE, List.mem_cons] at hb
    rcases hb with rfl | hb
    · omega
    · exact ih _ b hb

/-! ### UTF-8 round trip -/

theorem utf8Decode_nil : utf8Decode [] = some [] := by
  rw [utf8Decode.eq_def]

theorem utf8Decode_cons (b : Nat) (bs : List Nat) :
    utf8Decode (b :: bs) =
      if b < 0x80 then (utf8Decode bs).map (b :: ·)
      else if b < 0xC2 then none
      else if b < 0xE0 then utf8Dec2 b bs
      else if b < 0xF0 then utf8Dec3 b bs
      else if b < 0xF5 then utf8Dec4 b bs
      else none := by
  rw [utf8Decode.eq_def]

theorem utf8Dec2_cons (b b1 : Nat) (bs1 : List Nat) :
    utf8Dec2 b (b1 :: bs1) =
      if seq2OK b1 then (utf8Decode bs1).map (dec2 b b1 :: ·) else none := by
  rw [utf8Dec2.eq_def]

theorem utf8Dec3_cons (b b1 b2 : Nat) (bs1 : List Nat) :
    utf8Dec3 b (b1 :: b2 :: bs1) =
      if seq3OK b b1 b2 then (utf8Decode bs1).map (dec3 b b1 b2 :: ·)
      else none := by
  rw [utf8Dec3.eq_def]

theorem utf8Dec4_cons (b b1 b2 b3 : Nat) (bs1 : List Nat) :
    utf8Dec4 b (b1 :: b2 :: b3 :: bs1) =
      if seq4OK b b1 b2 b3 then (utf8Decode bs1).map (dec4 b b1 b2 b3 :: ·)
      else none := by
  rw [utf8Dec4.eq_def]

theorem utf8EncodeChar_decode (c : Nat) (h : validScalar c = true)
    (rest : List Nat) :
    utf8Decode (utf8EncodeChar c ++ rest) = (utf8Decode rest).map (c :: ·) := by
  have hval : c < 0xD800 ∨ (0xE000 ≤ c ∧ c < 0x110000) := by
    simpa [validScalar, decide_eq_true_eq] using h
  by_cases h1 : c < 0x80
  · simp only [utf8EncodeChar, if_pos h1, List.cons_append, List.nil_append]
    rw [utf8Decode_cons, if_pos h1]
  · by_cases h2 : c < 0x800
    · simp only [utf8EncodeChar, if_neg h1, if_pos h2, List.cons_append,
        List.nil_append]
      rw [utf8Decode_cons, if_neg (by omega), if_neg (by omega),
        if_pos (by omega), utf8Dec2_cons,
        if_pos (by simp only [seq2OK, contB, Bool.and_eq_true,
          decide_eq_true_eq]; omega)]
      have hc : dec2 (0xC0 + c / 64) (0x80 + c % 64) = c := by
        simp only [dec2]
        omega
      rw [hc]
    · by_cases h3 : c < 0x10000
      · simp only [utf8EncodeChar, if_neg h1, if_neg h2, if_pos h3,
          List.cons_append, List.nil_append]
        rw [utf8Decode_cons, if_neg (by omega), if_neg (by omega),
          if_neg (by omega), if_pos (by omega), utf8Dec3_cons,
          if_pos (by simp only [seq3OK, contB, Bool.and_eq_true,
            Bool.not_eq_true', Bool.and_eq_false_iff, decide_eq_true_eq,
            decide_eq_false_iff_not]; omega)]
        have hc : dec3 (0xE0 + c / 4096) (0x80 + c / 64 % 64)
            (0x80 + c % 64) = c := by
          simp only [dec3]
          omega
        rw [hc]
      · have h4 : c < 0x110000 := by omega
        simp only [utf8EncodeChar, if_neg h1, if_neg h2, if_neg h3,
          List.cons_append, List.nil_append]
        rw [utf8Decode_cons, if_neg (by omega), if_neg (by omega),
          if_neg (by omega), if_neg (by omega), if_pos (by omega),
          utf8Dec4_cons,
          if_pos (by simp only [seq4OK, contB, Bool.and_eq_true,
            Bool.not_eq_true', Bool.and_eq_false_iff, decide_eq_true_eq,
            decide_eq_false_iff_not]; omega)]
        have hc : dec4 (0xF0 + c / 262144) (0x80 + c / 4096 % 64)
            (0x80 + c / 64 % 64) (0x80 + c % 64) = c := by
          simp only [dec4]
          omega
        rw [hc]

theorem utf8Decode_encode (cps bs : List Nat) (h : utf8Encode cps = some bs) :
    utf8Decode bs = some cps := by
  induction cps generalizing bs with
  | nil =>
    simp only [utf8Encode] at h
    cases h
    exact utf8Decode_nil
  | cons c cs ih =>
    simp only [utf8Encode] at h
    by_cases hv : validScalar c = true
    · rw [if_pos hv] at h
      cases henc : utf8Encode cs with
      | none => rw [henc] at h; simp at h
      | some ebs =>
        rw [henc] at h
        simp only [Option.map_some'] at h
        injection h with h'
        rw [← h', utf8EncodeChar_decode c hv, ih ebs henc]
        rfl
    · rw [if_neg hv] at h
      simp at h

/-! ### Measuring loop lemmas -/

theorem measLoop_mono (fs : List (List Nat → Nat)) (d : List Nat) (len : Nat) :
    len ≤ measLoop fs d len := by
  induction fs generalizing len with
  | nil => simp [measLoop]
  | cons f fs ih =>
    calc len ≤ len + f (d.drop len) := Nat.le_add_right _ _
    _ ≤ measLoop fs d (len + f (d.drop len)) := ih _
    _ = measLoop (f :: fs) d len := rfl

theorem measLoop_take (fs : List (List Nat → Nat)) (d : List Nat) (len k : Nat)
    (hstable : ∀ f ∈ fs, ∀ b j, f b ≤ j → f (b.take j) = f b)
    (hk : measLoop fs d len ≤ k) :
    measLoop fs (d.take k) len = measLoop fs d len := by
  induction fs generalizing len with
  | nil => simp [measLoop]
  | cons f fs ih =>
    have hmono : len + f (d.drop len) ≤ measLoop (f :: fs) d len :=
      measLoop_mono fs d _
    have hfk : f (d.drop len) ≤ k - len := by omega
    have hdt : (d.take k).drop len = (d.drop len).take (k - len) :=
      List.drop_take k len d
    simp only [measLoop] at hk ⊢
    rw [hdt, hstable f (List.mem_cons_self f fs) (d.drop len) (k - len) hfk]
    exact ih _ (fun f hf => hstable f (List.mem_cons_of_mem _ hf)) hk

theorem measLoop_shift (fs : List (List Nat → Nat)) (d : List Nat) (a len : Nat) :
    measLoop fs d (a + len) = a + measLoop fs (d.drop a) len := by
  induction fs generalizing len with
  | nil => simp [measLoop]
  | cons f fs ih =>
    simp only [measLoop]
    rw [List.drop_drop len a d, Nat.add_assoc]
    exact ih _

theorem measLoop_append (fs : List (List Nat → Nat)) (bss : List (List Nat))
    (hf : List.Forall₂ (fun (f : List Nat → Nat) (bs : List Nat) =>
      ∀ g2, f (bs ++ g2) = bs.length) fs bss)
    (g pre : List Nat) :
    measLoop fs (pre ++ (bss.flatten ++ g)) pre.length =
      pre.length + bss.flatten.length := by
  induction hf generalizing pre with
  | nil => simp [measLoop]
  | @cons f bs fs bss h₁ h₂ ih =>
    have hassoc : pre ++ ((bs :: bss).flatten ++ g) =
        (pre ++ bs) ++ (bss.flatten ++ g) := by
      simp [List.flatten_cons, List.append_assoc]
    rw [hassoc]
    simp only [measLoop]
    have hdrop : ((pre ++ bs) ++ (bss.flatten ++ g)).drop pre.length =
        bs ++ (bss.flatten ++ g) := by
      rw [List.append_assoc, List.drop_left]
    rw [hdrop, h₁ (bss.flatten ++ g), ← List.length_append pre bs, ih (pre ++ bs)]
    simp [List.length_append, List.flatten_cons]
    omega

/-! ### Measure looks only at the bytes it reports -/

theorem measure_take (t : PType) (b : List Nat) (k : Nat)
    (hk : t.measure b ≤ k) : t.measure (b.take k) = t.measure b := by
  induction t generalizing b k with
  | str =>
    simp only [PType.measure] at hk ⊢
    rw [List.take_take, min_eq_left (by omega)]
  | array t ih =>
    simp only [PType.measure] at hk ⊢
    have hk1 : 1 ≤ k := le_trans (measLoop_mono _ b 1) hk
    rw [List.take_take, min_eq_left hk1]
    exact measLoop_take _ b 1 k
      (fun f hf b' j hj => by
        rw [List.eq_of_mem_replicate hf] at hj ⊢
        exact ih b' j hj) hk
  | _ => simp [PType.measure]

theorem cmeasure_take (map : List (String × PType)) (b : List Nat) (k : Nat)
    (hk : ComplexMappedType.measure map b ≤ k) :
    ComplexMappedType.measure map (b.take k) =
      ComplexMappedType.measure map b := by
  unfold ComplexMappedType.measure at hk ⊢
  exact measLoop_take _ b 0 k
    (fun f hf b' j hj => by
      obtain ⟨nt, hnt, rfl⟩ := List.mem_map.mp hf
      exact measure_take nt.2 b' j hj) hk

/-! ### Option-mapM helpers -/

theorem mapM_some_forall₂ {α β : Type} (f : α → Option β) :
    ∀ (l : List α) (l' : List β), l.mapM f = some l' →
      List.Forall₂ (fun a b => f a = some b) l l'
  | [], l', h => by
    have h0 : ([] : List α).mapM f = some [] := rfl
    rw [h0] at h
    cases h
    constructor
  | a :: l, l', h => by
    rw [List.mapM_cons] at h
    cases hfa : f a with
    | none => rw [hfa] at h; simp at h
    | some b =>
      rw [hfa] at h
      cases hml : l.mapM f with
      | none => rw [hml] at h; simp at h
      | some bs =>
        rw [hml] at h
        simp only [Option.bind_eq_bind, Option.some_bind, pure,
          Option.some.injEq] at h
        subst h
        exact List.Forall₂.cons hfa (mapM_some_forall₂ f l bs hml)

theorem mapM_eq_some_of_forall₂ {α β : Type} (f : α → Option β)
    {l : List α} {l' : List β}
    (h : List.Forall₂ (fun a b => f a = some b) l l') : l.mapM f = some l' := by
  induction h with
  | nil => rfl
  | cons h₁ h₂ ih => rw [List.mapM_cons, h₁, ih]; rfl

theorem exists_mapM_some {α β : Type} (f : α → Option β) :
    ∀ (l : List α), (∀ a ∈ l, ∃ b, f a = some b) →
      ∃ l', l.mapM f = some l'
  | [], _ => ⟨[], rfl⟩
  | a :: l, h => by
    obtain ⟨b, hb⟩ := h a (List.mem_cons_self a l)
    obtain ⟨l', hl'⟩ :=
      exists_mapM_some f l (fun x hx => h x (List.mem_cons_of_mem _ hx))
    exact ⟨b :: l', by rw [List.mapM_cons, hb, hl']; rfl⟩

theorem forall₂_replicate_of_all {α β : Type} (c : α) (P : α → β → Prop)
    (l : List β) (h : ∀ b ∈ l, P c b) :
    List.Forall₂ P (List.replicate l.length c) l := by
  induction l with
  | nil => constructor
  | cons b l ih =>
    rw [List.length_cons, List.replicate_succ]
    exact List.Forall₂.cons (h b (List.mem_cons_self b l))
      (ih fun x hx => h x (List.mem_cons_of_mem _ hx))

theorem forall₂_mem_right {α β : Type} {Q : α → β → Prop} :
    ∀ {l : List α} {l' : List β}, List.Forall₂ Q l l' →
      ∀ b ∈ l', ∃ a ∈ l, Q a b := by
  intro l l' h
  induction h with
  | nil => simp
  | cons h₁ h₂ ih =>
    intro b hb
    rcases List.mem_cons.mp hb with rfl | hb
    · exact ⟨_, List.mem_cons_self _ _, h₁⟩
    · obtain ⟨a, ha, hq⟩ := ih b hb
      exact ⟨a, List.mem_cons_of_mem _ ha, hq⟩

/-! ### Serialized byte lengths -/

theorem serSInt_length (n : Nat) (v : Int) (bs : List Nat)
    (h : serSInt n v = some bs) : bs.length = n := by
  unfold serSInt at h
  split at h
  · cases h
    exact toLE_length n _
  · cases h

theorem serUInt_length (n : Nat) (v : Int) (bs : List Nat)
    (h : serUInt n v = some bs) : bs.length = n := by
  unfold serUInt at h
  split at h
  · cases h
    exact toLE_length n _
  · cases h

theorem serFlt_length (n w p : Nat) (bs : List Nat)
    (h : serFlt n w p = some bs) : bs.length = n := by
  unfold serFlt at h
  split at h
  · cases h
    exact toLE_length n _
  · cases h

/-! ### Measure consistency: measure of a serialization plus garbage -/

theorem measure_serialize (t : PType) (v : PVal) (bs : List Nat)
    (hwf : pwf t v = true) (hascii : asciiOK t v = true)
    (hser : t.serialize v = some bs) (g : List Nat) :
    t.measure (bs ++ g) = bs.length := by
  induction t generalizing v bs g with
  | char =>
    obtain (w | ⟨w, p⟩ | s | l) := v
    · simp [PType.serialize] at hser
    · simp [PType.serialize] at hser
    · cases s with
      | nil => simp [PType.serialize] at hser
      | cons c cs =>
        simp only [PType.serialize] at hser
        simp only [asciiOK, decide_eq_true_eq] at hascii
        simp only [pwf] at hwf
        rw [if_pos hwf] at hser
        cases hser
        simp [PType.measure, utf8EncodeChar, if_pos hascii]
    · simp [PType.serialize] at hser
  | str =>
    obtain (w | ⟨w, p⟩ | s | l) := v
    · simp [PType.serialize] at hser
    · simp [PType.serialize] at hser
    · simp only [PType.serialize] at hser
      cases henc : utf8Encode s with
      | none => rw [henc] at hser; simp at hser
      | some enc =>
        rw [henc] at hser
        simp only [Option.some_bind] at hser
        split at hser
        · cases hser
          simp only [PType.measure]
          rw [List.append_assoc,
            List.take_left' (toLE_length 2 enc.length),
            fromLE_toLE 2 _ (by norm_num; omega)]
          simp [List.length_append, toLE_length]
          omega
        · cases hser
    · simp [PType.serialize] at hser
  | array t ih =>
    obtain (w | ⟨w, p⟩ | s | es) := v
    · simp [PType.serialize] at hser
    · simp [PType.serialize] at hser
    · simp [PType.serialize] at hser
    · simp only [PType.serialize] at hser
      split at hser
      · cases hm : es.mapM t.serialize with
        | none => rw [hm] at hser; simp at hser
        | some bss =>
          rw [hm] at hser
          simp only [Option.map_some', Option.some.injEq] at hser
          subst hser
          simp only [pwf, Bool.and_eq_true, decide_eq_true_eq,
            List.all_eq_true] at hwf
          simp only [asciiOK, List.all_eq_true] at hascii
          have hf2 := mapM_some_forall₂ t.serialize es bss hm
          have hlen : es.length = bss.length := hf2.length_eq
          have key : List.Forall₂
              (fun (f : List Nat → Nat) (b2 : List Nat) =>
                ∀ g2, f (b2 ++ g2) = b2.length)
              (List.replicate es.length t.measure) bss := by
            rw [hlen]
            refine forall₂_replicate_of_all _ _ _ ?_
            intro b2 hb2
            obtain ⟨e, he, hq⟩ := forall₂_mem_right hf2 b2 hb2
            intro g2
            exact ih e b2 (hwf.2 e he) (hascii e he) hq g2
          simp only [PType.measure]
          have htake : ((es.length :: bss.flatten) ++ g).take 1 =
              [es.length] := by simp
          rw [htake]
          have hfrom : fromLE [es.length] = es.length := by simp [fromLE]
          rw [hfrom]
          have hdata : (es.length :: bss.flatten) ++ g =
              [es.length] ++ (bss.flatten ++ g) := by simp
          rw [hdata]
          have := measLoop_append (List.replicate es.length t.measure) bss
            key g [es.length]
          simp only [List.length_cons, List.length_nil] at this
          rw [this]
          simp
          omega
      · cases hser
  | int8 =>
    obtain (w | ⟨w, p⟩ | s | l) := v
    · simp only [PType.serialize] at hser
      simp [PType.measure, serSInt_length 1 w bs hser]
    all_goals simp [PType.serialize] at hser
  | int16 =>
    obtain (w | ⟨w, p⟩ | s | l) := v
    · simp only [PType.serialize] at hser
      simp [PType.measure, serSInt_length 2 w bs hser]
    all_goals simp [PType.serialize] at hser
  | int32 =>
    obtain (w | ⟨w, p⟩ | s | l) := v
    · simp only [PType.serialize] at hser
      simp [PType.measure, serSInt_length 4 w bs hser]
    all_goals simp [PType.serialize] at hser
  | int64 =>
    obtain (w | ⟨w, p⟩ | s | l) := v
    · simp only [PType.serialize] at hser
      simp [PType.measure, serSInt_length 8 w bs hser]
    all_goals simp [PType.serialize] at hser
  | uint8 =>
    obtain (w | ⟨w, p⟩ | s | l) := v
    · simp only [PType.serialize] at hser
      simp [PType.measure, serUInt_length 1 w bs hser]
    all_goals simp [PType.serialize] at hser
  | uint16 =>
    obtain (w | ⟨w, p⟩ | s | l) := v
    · simp only [PType.serialize] at hser
      simp [PType.measure, serUInt_length 2 w bs hser]
    all_goals simp [PType.serialize] at hser
  | uint32 =>
    obtain (w | ⟨w, p⟩ | s | l) := v
    · simp only [PType.serialize] at hser
      simp [PType.measure, serUInt_length 4 w bs hser]
    all_goals simp [PType.serialize] at hser
  | uint64 =>
    obtain (w | ⟨w, p⟩ | s | l) := v
    · simp only [PType.serialize] at hser
      simp [PType.measure, serUInt_length 8 w bs hser]
    all_goals simp [PType.serialize] at hser
  | boolean =>
    obtain (w | ⟨w, p⟩ | s | l) := v
    · simp only [PType.serialize] at hser
      simp [PType.measure, serUInt_length 1 w bs hser]
    all_goals simp [PType.serialize] at hser
  | e =>
    obtain (w | ⟨w, p⟩ | s | l) := v
    · simp [PType.serialize] at hser
    · simp only [PType.serialize] at hser
      simp [PType.measure, serFlt_length 2 w p bs hser]
    all_goals simp [PType.serialize] at hser
  | float =>
    obtain (w | ⟨w, p⟩ | s | l) := v
    · simp [PType.serialize] at hser
    · simp only [PType.serialize] at hser
      simp [PType.measure, serFlt_length 4 w p bs hser]
    all_goals simp [PType.serialize] at hser
  | double =>
    obtain (w | ⟨w, p⟩ | s | l) := v
    · simp [PType.serialize] at hser
    · simp only [PType.serialize] at hser
      simp [PType.measure, serFlt_length 8 w p bs hser]
    all_goals simp [PType.serialize] at hser

/-! ### Deserialize ignores bytes beyond the measured length -/

theorem deserialize_take (t : PType) (hb : t ≠ PType.boolean) (b : List Nat) :
    t.deserialize (b.take (t.measure b)) = t.deserialize b := by
  cases t with
  | boolean => exact absurd rfl hb
  | e =>
    simp only [PType.deserialize, PType.measure, deserFlt, List.length_take,
      List.take_take, Nat.min_self]
    rcases lt_or_ge b.length 2 with hlt | hge
    · rw [if_pos (by omega), if_pos hlt]
    · rw [if_neg (by omega), if_neg (by omega)]
  | float =>
    simp only [PType.deserialize, PType.measure, deserFlt, List.length_take,
      List.take_take, Nat.min_self]
    rcases lt_or_ge b.length 4 with hlt | hge
    · rw [if_pos (by omega), if_pos hlt]
    · rw [if_neg (by omega), if_neg (by omega)]
  | double =>
    simp only [PType.deserialize, PType.measure, deserFlt, List.length_take,
      List.take_take, Nat.min_self]
    rcases lt_or_ge b.length 8 with hlt | hge
    · rw [if_pos (by omega), if_pos hlt]
    · rw [if_neg (by omega), if_neg (by omega)]
  | char =>
    cases b with
    | nil => simp [PType.measure]
    | cons c cs => simp [PType.deserialize, PType.measure]
  | str =>
    simp only [PType.deserialize]
    rw [measure_take PType.str b _ (le_refl _),
      List.take_take (PType.str.measure b) (PType.str.measure b) b, min_self]
  | array t =>
    simp only [PType.deserialize]
    rw [measure_take (PType.array t) b _ (le_refl _),
      List.take_take ((PType.array t).measure b) ((PType.array t).measure b) b,
      min_self]
  | _ => simp [PType.deserialize, PType.measure, List.take_take]

theorem cdeserialize_take (map : List (String × PType)) (b : List Nat) :
    ComplexMappedType.deserialize map
      (b.take (ComplexMappedType.measure map b)) =
      ComplexMappedType.deserialize map b := by
  unfold ComplexMappedType.deserialize
  rw [cmeasure_take map b _ (le_refl _), List.take_take, Nat.min_self]

/-! ### Composite measure of a serialization plus garbage -/

theorem instFieldsOf_cons (nm : String) (t : PType)
    (map : List (String × PType)) (v : PVal) (vs : List PVal) :
    instFieldsOf ((nm, t) :: map) (v :: vs) =
      FieldStored.inst t v :: instFieldsOf map vs := by
  simp [instFieldsOf]

theorem cmeasure_serialize (map : List (String × PType)) (vs : List PVal)
    (bs : List Nat) (hok : cfieldsAsciiOK map vs = true)
    (hser : ComplexMappedType.serialize deadCtor map (instFieldsOf map vs) =
      some bs) (g : List Nat) :
    ComplexMappedType.measure map (bs ++ g) = bs.length := by
  induction map generalizing vs bs with
  | nil =>
    simp only [instFieldsOf, List.zip_nil_left, List.map_nil,
      ComplexMappedType.serialize, Option.some.injEq] at hser
    subst hser
    simp [ComplexMappedType.measure, measLoop]
  | cons nt map ih =>
    obtain ⟨nm, t⟩ := nt
    cases vs with
    | nil => simp [cfieldsAsciiOK] at hok
    | cons v vs =>
      simp only [cfieldsAsciiOK, Bool.and_eq_true] at hok
      rw [instFieldsOf_cons] at hser
      simp only [ComplexMappedType.serialize] at hser
      cases hsv : t.serialize v with
      | none => rw [hsv] at hser; simp at hser
      | some b1 =>
        rw [hsv] at hser
        cases hrest : ComplexMappedType.serialize deadCtor map
            (instFieldsOf map vs) with
        | none => rw [hrest] at hser; simp at hser
        | some rest =>
          rw [hrest] at hser
          simp only [Option.bind_eq_bind, Option.some_bind, pure,
            Option.some.injEq] at hser
          subst hser
          simp only [ComplexMappedType.measure, List.map_cons, measLoop]
          have hD : (b1 ++ rest) ++ g = b1 ++ (rest ++ g) :=
            List.append_assoc b1 rest g
          rw [hD, List.drop_zero, Nat.zero_add,
            measure_serialize t v b1 hok.1.1 hok.1.2 hsv (rest ++ g)]
          have hshift := measLoop_shift (map.map fun nt => nt.2.measure)
            (b1 ++ (rest ++ g)) b1.length 0
          rw [Nat.add_zero] at hshift
          rw [hshift, List.drop_left]
          have := ih vs rest hok.2 hrest
          simp only [ComplexMappedType.measure] at this
          rw [this]
          simp [List.length_append]

/-! ### Sequential decoding: one correct step per serialized chunk -/

/-- Invariant for `deserLoop`: each decoder in the list, applied to its own
chunk followed by exactly the later chunks, returns the expected value, and
each measurer reports its own chunk's length there. -/
inductive ChainOK :
    List ((List Nat → Option PVal) × (List Nat → Nat)) → List (List Nat) →
      List PVal → Prop where
  | nil : ChainOK [] [] []
  | cons {df : List Nat → Option PVal} {mf : List Nat → Nat} {bs : List Nat}
      {v : PVal} {fs bss vs} :
      df (bs ++ bss.flatten) = some v →
      mf (bs ++ bss.flatten) = bs.length →
      ChainOK fs bss vs →
      ChainOK ((df, mf) :: fs) (bs :: bss) (v :: vs)

theorem deserLoop_chain {fs bss vs} (h : ChainOK fs bss vs) :
    ∀ pre : List Nat, deserLoop fs (pre ++ bss.flatten) pre.length = some vs := by
  induction h with
  | nil => intro pre; simp [deserLoop]
  | @cons df mf bs v fs bss vs h₁ h₂ h₃ ih =>
    intro pre
    have hd : pre ++ (bs :: bss).flatten = (pre ++ bs) ++ bss.flatten := by
      simp [List.append_assoc]
    rw [hd]
    simp only [deserLoop]
    have hdrop : ((pre ++ bs) ++ bss.flatten).drop pre.length =
        bs ++ bss.flatten := by
      rw [List.append_assoc, List.drop_left]
    rw [hdrop, h₁, h₂, ← List.length_append pre bs]
    simp only [Option.bind_eq_bind, Option.some_bind]
    rw [ih (pre ++ bs)]
    rfl

/-! ### rtOK on arrays of a non-Boolean element type -/

theorem rtOK_array (t : PType) (hne : t ≠ PType.boolean) (es : List PVal) :
    rtOK (PType.array t) (PVal.varr es) = es.all (rtOK t) := by
  cases t
  case boolean => exact absurd rfl hne
  all_goals simp [rtOK]

theorem asciiOK_of_rtOK (t : PType) (v : PVal) (h : rtOK t v = true) :
    asciiOK t v = true := by
  induction t generalizing v with
  | char =>
    cases v with
    | vstr s =>
      cases s with
      | nil => simp [rtOK] at h
      | cons c cs =>
        cases cs with
        | nil =>
          simp only [rtOK] at h
          simp [asciiOK, h]
        | cons c2 cs2 => simp [rtOK] at h
    | vint w => simp [asciiOK]
    | vflt w p => simp [asciiOK]
    | varr l => simp [asciiOK]
  | array t ih =>
    cases v with
    | varr es =>
      by_cases hb : t = PType.boolean
      · subst hb
        simp only [asciiOK, List.all_eq_true]
        intro e he
        cases e <;> simp [asciiOK]
      · rw [rtOK_array t hb es] at h
        simp only [List.all_eq_true] at h
        simp only [asciiOK, List.all_eq_true]
        intro e he
        exact ih e (h e he)
    | vint w => simp [asciiOK]
    | vflt w p => simp [asciiOK]
    | vstr s => simp [asciiOK]
  | _ => cases v <;> simp [asciiOK]

/-! ### Round-trip building blocks for the scalar primitives -/

theorem roundtrip_sint (t : PType) (n : Nat) (hn : 0 < n)
    (hser_eq : ∀ w : Int, t.serialize (.vint w) = serSInt n w)
    (hdeser_eq : ∀ d : List Nat,
      t.deserialize d = some (.vint (sfromLE (d.take n))))
    (w : Int) (h1 : -(2 ^ (8 * n - 1) : Int) ≤ w) (h2 : w < 2 ^ (8 * n - 1)) :
    ∃ bs, t.serialize (.vint w) = some bs ∧
      t.deserialize bs = some (.vint w) ∧
      (t ≠ PType.boolean → ∀ g, t.deserialize (bs ++ g) = some (.vint w)) := by
  have hj : ∀ g, t.deserialize (toLE n (w % (2 ^ (8 * n) : Int)).toNat ++ g) =
      some (.vint w) := by
    intro g
    rw [hdeser_eq, List.take_left' (toLE_length n _),
      sfromLE_toLE n hn w h1 h2]
  refine ⟨toLE n (w % (2 ^ (8 * n) : Int)).toNat, ?_, ?_, fun _ g => hj g⟩
  · rw [hser_eq]
    unfold serSInt
    rw [if_pos ⟨h1, h2⟩]
  · have := hj []
    rwa [List.append_nil] at this

theorem roundtrip_uint (t : PType) (n : Nat)
    (hser_eq : ∀ w : Int, t.serialize (.vint w) = serUInt n w)
    (hdeser_eq : ∀ d : List Nat,
      t.deserialize d = some (.vint (fromLE (d.take n))))
    (w : Int) (h1 : 0 ≤ w) (h2 : w < (2 ^ (8 * n) : Int)) :
    ∃ bs, t.serialize (.vint w) = some bs ∧
      t.deserialize bs = some (.vint w) ∧
      (t ≠ PType.boolean → ∀ g, t.deserialize (bs ++ g) = some (.vint w)) := by
  have hcast : (w.toNat : Int) = w := Int.toNat_of_nonneg h1
  have hlink : ((2 ^ (8 * n) : Nat) : Int) = (2 ^ (8 * n) : Int) := by
    push_cast
    ring
  have hb : w.toNat < 2 ^ (8 * n) := by omega
  have hj : ∀ g, t.deserialize (toLE n w.toNat ++ g) = some (.vint w) := by
    intro g
    rw [hdeser_eq, List.take_left' (toLE_length n _), fromLE_toLE n _ hb]
    rw [hcast]
  refine ⟨toLE n w.toNat, ?_, ?_, fun _ g => hj g⟩
  · rw [hser_eq]
    unfold serUInt
    rw [if_pos ⟨h1, h2⟩]
  · have := hj []
    rwa [List.append_nil] at this

theorem roundtrip_flt (t : PType) (n : Nat)
    (hser_eq : ∀ w p, t.serialize (.vflt w p) = serFlt n w p)
    (hdeser_eq : ∀ d : List Nat, t.deserialize d = deserFlt n d)
    (p : Nat) (hp : p < 2 ^ (8 * n)) :
    ∃ bs, t.serialize (.vflt n p) = some bs ∧
      t.deserialize bs = some (.vflt n p) ∧
      (t ≠ PType.boolean → ∀ g, t.deserialize (bs ++ g) = some (.vflt n p)) := by
  have hj : ∀ g, t.deserialize (toLE n p ++ g) = some (.vflt n p) := by
    intro g
    rw [hdeser_eq]
    unfold deserFlt
    rw [if_neg (by simp [List.length_append, toLE_length]),
      List.take_left' (toLE_length n _), fromLE_toLE n _ hp]
  refine ⟨toLE n p, ?_, ?_, fun _ g => hj g⟩
  · rw [hser_eq]
    unfold serFlt
    rw [if_pos ⟨rfl, hp⟩]
  · have := hj []
    rwa [List.append_nil] at this

theorem chainOK_build (t : PType) {es : List PVal} {bss : List (List Nat)}
    (hf : List.Forall₂ (fun e b => t.serialize e = some b) es bss)
    (hjunk : ∀ e ∈ es, ∀ b2 g, t.serialize e = some b2 →
      t.deserialize (b2 ++ g) = some e)
    (hmeas : ∀ e ∈ es, ∀ b2 g, t.serialize e = some b2 →
      t.measure (b2 ++ g) = b2.length) :
    ChainOK (List.replicate es.length (t.deserialize, t.measure)) bss es := by
  induction hf with
  | nil => exact ChainOK.nil
  | @cons e b es' bss' h₁ h₂ ih =>
    rw [List.length_cons, List.replicate_succ]
    exact ChainOK.cons
      (hjunk e (List.mem_cons_self _ _) b bss'.flatten h₁)
      (hmeas e (List.mem_cons_self _ _) b bss'.flatten h₁)
      (ih (fun x hx => hjunk x (List.mem_cons_of_mem _ hx))
        (fun x hx => hmeas x (List.mem_cons_of_mem _ hx)))

/-! ### Round trip: deserialize of serialize -/

theorem roundtrip_main (t : PType) (v : PVal)
    (hwf : pwf t v = true) (hrt : rtOK t v = true) :
    ∃ bs, t.serialize v = some bs ∧ t.deserialize bs = some v ∧
      (t ≠ PType.boolean → ∀ g, t.deserialize (bs ++ g) = some v) := by
  induction t generalizing v with
  | int8 =>
    obtain (w | ⟨w, p⟩ | s | l) := v
    · simp only [pwf, decide_eq_true_eq] at hwf
      exact roundtrip_sint PType.int8 1 (by norm_num)
        (fun w => by simp [PType.serialize])
        (fun d => by simp [PType.deserialize]) w (by omega) (by omega)
    all_goals simp [pwf] at hwf
  | int16 =>
    obtain (w | ⟨w, p⟩ | s | l) := v
    · simp only [pwf, decide_eq_true_eq] at hwf
      exact roundtrip_sint PType.int16 2 (by norm_num)
        (fun w => by simp [PType.serialize])
        (fun d => by simp [PType.deserialize]) w (by omega) (by omega)
    all_goals simp [pwf] at hwf
  | int32 =>
    obtain (w | ⟨w, p⟩ | s | l) := v
    · simp only [pwf, decide_eq_true_eq] at hwf
      exact roundtrip_sint PType.int32 4 (by norm_num)
        (fun w => by simp [PType.serialize])
        (fun d => by simp [PType.deserialize]) w (by omega) (by omega)
    all_goals simp [pwf] at hwf
  | int64 =>
    obtain (w | ⟨w, p⟩ | s | l) := v
    · simp only [pwf, decide_eq_true_eq] at hwf
      exact roundtrip_sint PType.int64 8 (by norm_num)
        (fun w => by simp [PType.serialize])
        (fun d => by simp [PType.deserialize]) w (by omega) (by omega)
    all_goals simp [pwf] at hwf
  | uint8 =>
    obtain (w | ⟨w, p⟩ | s | l) := v
    · simp only [pwf, decide_eq_true_eq] at hwf
      exact roundtrip_uint PType.uint8 1
        (fun w => by simp [PType.serialize])
        (fun d => by simp [PType.deserialize]) w hwf.1 (by omega)
    all_goals simp [pwf] at hwf
  | uint16 =>
    obtain (w | ⟨w, p⟩ | s | l) := v
    · simp only [pwf, decide_eq_true_eq] at hwf
      exact roundtrip_uint PType.uint16 2
        (fun w => by simp [PType.serialize])
        (fun d => by simp [PType.deserialize]) w hwf.1 (by omega)
    all_goals simp [pwf] at hwf
  | uint32 =>
    obtain (w | ⟨w, p⟩ | s | l) := v
    · simp only [pwf, decide_eq_true_eq] at hwf
      exact roundtrip_uint PType.uint32 4
        (fun w => by simp [PType.serialize])
        (fun d => by simp [PType.deserialize]) w hwf.1 (by omega)
    all_goals simp [pwf] at hwf
  | uint64 =>
    obtain (w | ⟨w, p⟩ | s | l) := v
    · simp only [pwf, decide_eq_true_eq] at hwf
      exact roundtrip_uint PType.uint64 8
        (fun w => by simp [PType.serialize])
        (fun d => by simp [PType.deserialize]) w hwf.1 (by omega)
    all_goals simp [pwf] at hwf
  | boolean =>
    obtain (w | ⟨w, p⟩ | s | l) := v
    · simp only [pwf, decide_eq_true_eq] at hwf
      have hcast : (w.toNat : Int) = w := Int.toNat_of_nonneg hwf.1
      have hb : w.toNat < 2 ^ (8 * 1) := by omega
      refine ⟨toLE 1 w.toNat, ?_, ?_, fun hne _ => absurd rfl hne⟩
      · simp only [PType.serialize]
        unfold serUInt
        rw [if_pos (show (0 : Int) ≤ w ∧ w < 2 ^ (8 * 1) from ⟨hwf.1, by omega⟩)]
      · simp only [PType.deserialize]
        rw [fromLE_toLE 1 _ hb, hcast]
    all_goals simp [pwf] at hwf
  | e =>
    obtain (w | ⟨w, p⟩ | s | l) := v
    · simp [pwf] at hwf
    · simp only [pwf, Bool.and_eq_true, beq_iff_eq, decide_eq_true_eq] at hwf
      obtain ⟨rfl, hp⟩ := hwf
      exact roundtrip_flt PType.e 2
        (fun w p => by simp [PType.serialize])
        (fun d => by simp [PType.deserialize]) p (by omega)
    all_goals simp [pwf] at hwf
  | float =>
    obtain (w | ⟨w, p⟩ | s | l) := v
    · simp [pwf] at hwf
    · simp only [pwf, Bool.and_eq_true, beq_iff_eq, decide_eq_true_eq] at hwf
      obtain ⟨rfl, hp⟩ := hwf
      exact roundtrip_flt PType.float 4
        (fun w p => by simp [PType.serialize])
        (fun d => by simp [PType.deserialize]) p (by omega)
    all_goals simp [pwf] at hwf
  | double =>
    obtain (w | ⟨w, p⟩ | s | l) := v
    · simp [pwf] at hwf
    · simp only [pwf, Bool.and_eq_true, beq_iff_eq, decide_eq_true_eq] at hwf
      obtain ⟨rfl, hp⟩ := hwf
      exact roundtrip_flt PType.double 8
        (fun w p => by simp [PType.serialize])
        (fun d => by simp [PType.deserialize]) p (by omega)
    all_goals simp [pwf] at hwf
  | char =>
    obtain (w | ⟨w, p⟩ | s | l) := v
    · simp [pwf] at hwf
    · simp [pwf] at hwf
    · cases s with
      | nil => simp [rtOK] at hrt
      | cons c cs =>
        cases cs with
        | nil =>
          simp only [rtOK, decide_eq_true_eq] at hrt
          have hvs : validScalar c = true := by
            simp only [validScalar, Bool.or_eq_true, decide_eq_true_eq]
            omega
          have henc : utf8EncodeChar c = [c] := by
            simp [utf8EncodeChar, hrt]
          have hj : ∀ g, PType.char.deserialize ([c] ++ g) =
              some (.vstr [c]) := by
            intro g
            simp [PType.deserialize]
          refine ⟨[c], ?_, ?_, fun _ g => hj g⟩
          · simp only [PType.serialize]
            rw [if_pos hvs, henc]
          · have := hj []
            rwa [List.append_nil] at this
        | cons c2 cs2 => simp [rtOK] at hrt
    · simp [pwf] at hwf
  | str =>
    obtain (w | ⟨w, p⟩ | s | l) := v
    · simp [pwf] at hwf
    · simp [pwf] at hwf
    · simp only [pwf] at hwf
      cases henc : utf8Encode s with
      | none => rw [henc] at hwf; simp at hwf
      | some enc =>
        rw [henc] at hwf
        simp only [decide_eq_true_eq] at hwf
        have hser : PType.str.serialize (.vstr s) =
            some (toLE 2 enc.length ++ enc) := by
          simp only [PType.serialize]
          rw [henc]
          simp only [Option.some_bind]
          rw [if_pos (by omega)]
        have hmeas2 : ∀ g, PType.str.measure ((toLE 2 enc.length ++ enc) ++ g) =
            enc.length + 2 := by
          intro g
          simp only [PType.measure]
          rw [List.append_assoc, List.take_left' (toLE_length 2 enc.length),
            fromLE_toLE 2 _ (by omega)]
        have hj : ∀ g, PType.str.deserialize ((toLE 2 enc.length ++ enc) ++ g) =
            some (.vstr s) := by
          intro g
          simp only [PType.deserialize]
          rw [hmeas2 g]
          have hlen : (toLE 2 enc.length ++ enc).length = enc.length + 2 := by
            simp [toLE_length]
            omega
          rw [List.take_left' hlen, List.drop_left' (toLE_length 2 enc.length),
            utf8Decode_encode s enc henc]
          rfl
        exact ⟨_, hser, by have := hj []; rwa [List.append_nil] at this,
          fun _ g => hj g⟩
    · simp [pwf] at hwf
  | array t ih =>
    obtain (w | ⟨w, p⟩ | s | es) := v
    · simp [pwf] at hwf
    · simp [pwf] at hwf
    · simp [pwf] at hwf
    · have hwf0 := hwf
      have hrt0 := hrt
      have hascii0 : asciiOK (PType.array t) (.varr es) = true :=
        asciiOK_of_rtOK _ _ hrt
      simp only [pwf, Bool.and_eq_true, decide_eq_true_eq,
        List.all_eq_true] at hwf
      by_cases hb : t = PType.boolean
      · subst hb
        simp only [rtOK, decide_eq_true_eq] at hrt
        cases es with
        | nil =>
          have hser : (PType.array PType.boolean).serialize (.varr []) =
              some [0] := by
            simp only [PType.serialize]
            rw [if_pos (by norm_num)]
            rfl
          have hj : ∀ g, (PType.array PType.boolean).deserialize ([0] ++ g) =
              some (.varr []) := by
            intro g
            simp only [PType.deserialize, PType.measure]
            have ht1 : ([0] ++ g).take 1 = [0] := rfl
            rw [ht1]
            have hf0 : fromLE [0] = 0 := by simp [fromLE]
            rw [hf0]
            simp [measLoop, deserLoop]
          exact ⟨[0], hser, by have := hj []; rwa [List.append_nil] at this,
            fun _ g => hj g⟩
        | cons e es' =>
          cases es' with
          | cons e2 es2 => simp at hrt
          | nil =>
            have hpe : pwf PType.boolean e = true :=
              hwf.2 e (List.mem_cons_self _ _)
            obtain (w | ⟨w2, p2⟩ | s2 | l2) := e
            · 
              simp only [pwf, decide_eq_true_eq] at hpe
              have hcast : (w.toNat : Int) = w := Int.toNat_of_nonneg hpe.1
              have hu : w.toNat < 256 := by omega
              have hselem : PType.boolean.serialize (.vint w) =
                  some [w.toNat] := by
                simp only [PType.serialize]
                unfold serUInt
                rw [if_pos (show (0 : Int) ≤ w ∧ w < 2 ^ (8 * 1) from
                  ⟨hpe.1, by omega⟩)]
                simp [toLE, Nat.mod_eq_of_lt hu]
              have hser : (PType.array PType.boolean).serialize
                  (.varr [.vint w]) = some [1, w.toNat] := by
                simp only [PType.serialize]
                rw [if_pos (by norm_num), List.mapM_cons, hselem]
                rfl
              have hf1 : fromLE [1] = 1 := by simp [fromLE]
              have hj : ∀ g, (PType.array PType.boolean).deserialize
                  (1 :: w.toNat :: g) = some (.varr [.vint w]) := by
                intro g
                have hmeasval : (PType.array PType.boolean).measure
                    (1 :: w.toNat :: g) = 2 := by
                  simp only [PType.measure]
                  have ht1 : (1 :: w.toNat :: g).take 1 = [1] := rfl
                  rw [ht1, hf1]
                  have hd1 : (1 :: w.toNat :: g).drop 1 = w.toNat :: g := rfl
                  simp only [List.replicate, measLoop, hd1, PType.measure]
                simp only [PType.deserialize]
                rw [hmeasval]
                have ht2 : (1 :: w.toNat :: g).take 2 = [1, w.toNat] := rfl
                rw [ht2]
                have ht1b : ([1, w.toNat] : List Nat).take 1 = [1] := rfl
                rw [ht1b, hf1]
                simp only [List.replicate, deserLoop]
                have hd1b : ([1, w.toNat] : List Nat).drop 1 = [w.toNat] := rfl
                rw [hd1b]
                simp only [PType.deserialize]
                have hf2 : fromLE [w.toNat] = w.toNat := by simp [fromLE]
                rw [hf2, hcast]
                simp [deserLoop]
              exact ⟨[1, w.toNat], hser, hj [], fun _ g => hj g⟩
            · simp [pwf] at hpe
            · simp [pwf] at hpe
            · simp [pwf] at hpe
      · -- non-Boolean element type
        rw [rtOK_array t hb es] at hrt
        simp only [List.all_eq_true] at hrt
        obtain ⟨bss, hm⟩ := exists_mapM_some t.serialize es
          (fun e he => (ih e (hwf.2 e he) (hrt e he)).elim
            (fun b hb2 => ⟨b, hb2.1⟩))
        have hf := mapM_some_forall₂ t.serialize es bss hm
        have hser : (PType.array t).serialize (.varr es) =
            some (es.length :: bss.flatten) := by
          simp only [PType.serialize]
          rw [if_pos (by omega), hm]
          rfl
        have hjunk : ∀ e ∈ es, ∀ b2 g, t.serialize e = some b2 →
            t.deserialize (b2 ++ g) = some e := by
          intro e he b2 g hs2
          obtain ⟨b3, h3, _, hj3⟩ := ih e (hwf.2 e he) (hrt e he)
          rw [h3] at hs2
          cases hs2
          exact hj3 hb g
        have hmeasall : ∀ e ∈ es, ∀ b2 g, t.serialize e = some b2 →
            t.measure (b2 ++ g) = b2.length := by
          intro e he b2 g hs2
          exact measure_serialize t e b2 (hwf.2 e he)
            (asciiOK_of_rtOK t e (hrt e he)) hs2 g
        have hchain := chainOK_build t hf hjunk hmeasall
        have hj : ∀ g, (PType.array t).deserialize
            ((es.length :: bss.flatten) ++ g) = some (.varr es) := by
          intro g
          have hAmeas : (PType.array t).measure
              ((es.length :: bss.flatten) ++ g) =
              (es.length :: bss.flatten).length :=
            measure_serialize (PType.array t) (.varr es) _ hwf0 hascii0 hser g
          simp only [PType.deserialize]
          rw [hAmeas, List.take_left]
          have ht1 : (es.length :: bss.flatten).take 1 = [es.length] := rfl
          rw [ht1]
          have hf1 : fromLE [es.length] = es.length := by simp [fromLE]
          rw [hf1]
          have hdata : es.length :: bss.flatten = [es.length] ++ bss.flatten :=
            rfl
          rw [hdata]
          have := deserLoop_chain hchain [es.length]
          simp only [List.length_cons, List.length_nil] at this
          rw [this]
          rfl
        exact ⟨_, hser, by have := hj []; rwa [List.append_nil] at this,
          fun _ g => hj g⟩

/-! ### Composite round trip -/

theorem cfields_ascii (map : List (String × PType)) (vs : List PVal)
    (h : cfieldsOK map vs = true) : cfieldsAsciiOK map vs = true := by
  induction map generalizing vs with
  | nil =>
    cases vs with
    | nil => simp [cfieldsAsciiOK]
    | cons v vs => simp [cfieldsOK] at h
  | cons nt map ih =>
    obtain ⟨nm, t⟩ := nt
    cases vs with
    | nil => simp [cfieldsOK] at h
    | cons v vs =>
      simp only [cfieldsOK, Bool.and_eq_true] at h
      simp only [cfieldsAsciiOK, Bool.and_eq_true]
      exact ⟨⟨h.1.1, asciiOK_of_rtOK _ _ h.1.2⟩, ih vs h.2⟩

theorem cser_decomp (map : List (String × PType)) (vs : List PVal)
    (bs : List Nat) (hok : cfieldsOK map vs = true)
    (hmid : noMidBool map = true)
    (hser : ComplexMappedType.serialize deadCtor map (instFieldsOf map vs) =
      some bs) :
    ∃ bss, bs = bss.flatten ∧
      ChainOK (map.map fun nt => (nt.2.deserialize, nt.2.measure)) bss vs := by
  induction map generalizing vs bs with
  | nil =>
    cases vs with
    | nil =>
      simp only [instFieldsOf, List.zip_nil_left, List.map_nil,
        ComplexMappedType.serialize, Option.some.injEq] at hser
      exact ⟨[], hser.symm, ChainOK.nil⟩
    | cons v vs => simp [cfieldsOK] at hok
  | cons nt map ih =>
    obtain ⟨nm, t⟩ := nt
    cases vs with
    | nil => simp [cfieldsOK] at hok
    | cons v vs =>
      simp only [cfieldsOK, Bool.and_eq_true] at hok
      rw [instFieldsOf_cons] at hser
      simp only [ComplexMappedType.serialize] at hser
      cases hsv : t.serialize v with
      | none => rw [hsv] at hser; simp at hser
      | some b1 =>
        rw [hsv] at hser
        cases hrest : ComplexMappedType.serialize deadCtor map
            (instFieldsOf map vs) with
        | none => rw [hrest] at hser; simp at hser
        | some brest =>
          rw [hrest] at hser
          simp only [Option.bind_eq_bind, Option.some_bind, pure,
            Option.some.injEq] at hser
          have hmid' : noMidBool map = true := by
            cases map with
            | nil => rfl
            | cons f map2 =>
              simp only [noMidBool, Bool.and_eq_true] at hmid
              exact hmid.2
          obtain ⟨bss, rfl, hchain⟩ := ih vs brest hok.2 hmid' hrest
          refine ⟨b1 :: bss, hser.symm, ?_⟩
          simp only [List.map_cons]
          have hmeas : t.measure (b1 ++ bss.flatten) = b1.length :=
            measure_serialize t v b1 hok.1.1
              (asciiOK_of_rtOK t v hok.1.2) hsv bss.flatten
          cases map with
          | nil =>
            cases hchain
            refine ChainOK.cons ?_ hmeas ChainOK.nil
            obtain ⟨b2, hs2, hd2, _⟩ := roundtrip_main t v hok.1.1 hok.1.2
            rw [hsv] at hs2
            cases hs2
            simpa using hd2
          | cons f map2 =>
            simp only [noMidBool, Bool.and_eq_true, decide_eq_true_eq] at hmid
            refine ChainOK.cons ?_ hmeas hchain
            obtain ⟨b2, hs2, _, hjunk⟩ := roundtrip_main t v hok.1.1 hok.1.2
            rw [hsv] at hs2
            cases hs2
            exact hjunk hmid.1 bss.flatten

theorem croundtrip (map : List (String × PType)) (vs : List PVal)
    (bs : List Nat) (hok : cfieldsOK map vs = true)
    (hmid : noMidBool map = true)
    (hser : ComplexMappedType.serialize deadCtor map (instFieldsOf map vs) =
      some bs) :
    ComplexMappedType.deserialize map bs = some vs := by
  obtain ⟨bss, rfl, hchain⟩ := cser_decomp map vs bs hok hmid hser
  have hm : ComplexMappedType.measure map bss.flatten = bss.flatten.length := by
    have := cmeasure_serialize map vs bss.flatten (cfields_ascii map vs hok)
      hser []
    rwa [List.append_nil] at this
  unfold ComplexMappedType.deserialize
  rw [hm, List.take_length]
  exact deserLoop_chain hchain []

/-! ### Reflexivity of the Python equality on round-trip-safe values -/

theorem pvalEq_varr_of_all (es : List PVal)
    (h : ∀ e ∈ es, pvalEq e e = true) :
    pvalEq (.varr es) (.varr es) = true := by
  induction es with
  | nil => simp [pvalEq]
  | cons x xs ih =>
    simp only [pvalEq, Bool.and_eq_true]
    exact ⟨h x (List.mem_cons_self _ _),
      ih fun e he => h e (List.mem_cons_of_mem _ he)⟩

theorem pvalEq_refl (t : PType) (v : PVal) (hwf : pwf t v = true)
    (hrt : rtOK t v = true) : pvalEq v v = true := by
  induction t generalizing v with
  | e =>
    obtain (w | ⟨w, p⟩ | s | l) := v
    · simp [pwf] at hwf
    · simp only [pwf, Bool.and_eq_true, beq_iff_eq, decide_eq_true_eq] at hwf
      obtain ⟨rfl, hp⟩ := hwf
      simp only [rtOK, Bool.not_eq_true'] at hrt
      simp [pvalEq, hrt]
    all_goals simp [pwf] at hwf
  | float =>
    obtain (w | ⟨w, p⟩ | s | l) := v
    · simp [pwf] at hwf
    · simp only [pwf, Bool.and_eq_true, beq_iff_eq, decide_eq_true_eq] at hwf
      obtain ⟨rfl, hp⟩ := hwf
      simp only [rtOK, Bool.not_eq_true'] at hrt
      simp [pvalEq, hrt]
    all_goals simp [pwf] at hwf
  | double =>
    obtain (w | ⟨w, p⟩ | s | l) := v
    · simp [pwf] at hwf
    · simp only [pwf, Bool.and_eq_true, beq_iff_eq, decide_eq_true_eq] at hwf
      obtain ⟨rfl, hp⟩ := hwf
      simp only [rtOK, Bool.not_eq_true'] at hrt
      simp [pvalEq, hrt]
    all_goals simp [pwf] at hwf
  | array t ih =>
    obtain (w | ⟨w, p⟩ | s | es) := v
    · simp [pwf] at hwf
    · simp [pwf] at hwf
    · simp [pwf] at hwf
    · simp only [pwf, Bool.and_eq_true, decide_eq_true_eq,
        List.all_eq_true] at hwf
      by_cases hb : t = PType.boolean
      · subst hb
        refine pvalEq_varr_of_all es fun e he => ?_
        have := hwf.2 e he
        obtain (w | ⟨w2, p2⟩ | s2 | l2) := e
        · simp [pvalEq]
        all_goals simp [pwf] at this
      · rw [rtOK_array t hb es] at hrt
        simp only [List.all_eq_true] at hrt
        exact pvalEq_varr_of_all es fun e he =>
          ih e (hwf.2 e he) (hrt e he)
  | char =>
    obtain (w | ⟨w, p⟩ | s | l) := v
    · simp [pwf] at hwf
    · simp [pwf] at hwf
    · simp [pvalEq]
    · simp [pwf] at hwf
  | str =>
    obtain (w | ⟨w, p⟩ | s | l) := v
    · simp [pwf] at hwf
    · simp [pwf] at hwf
    · simp [pvalEq]
    · simp [pwf] at hwf
  | _ =>
    obtain (w | ⟨w, p⟩ | s | l) := v
    · simp [pvalEq]
    all_goals simp [pwf] at hwf

/-! ### Field values of a well-formed composite are Python-equal to themselves -/

theorem cfields_pvalEq (map : List (String × PType)) (vs : List PVal)
    (h : cfieldsOK map vs = true) :
    vs.all (fun v => pvalEq v v) = true := by
  induction map generalizing vs with
  | nil =>
    cases vs with
    | nil => rfl
    | cons v vs => simp [cfieldsOK] at h
  | cons nt map ih =>
    obtain ⟨nm, t⟩ := nt
    cases vs with
    | nil => simp [cfieldsOK] at h
    | cons v vs =>
      simp only [cfieldsOK, Bool.and_eq_true] at h
      simp only [List.all_cons, Bool.and_eq_true]
      exact ⟨pvalEq_refl t v h.1.1 h.1.2, ih vs h.2⟩

/-! ### Characterization of the composite serializer (claim C4) -/

theorem cserialize_eq_spec {R : Type} (ctor : PType → R → Option PVal) :
    ∀ (map : List (String × PType)) (stored : List (FieldStored R)),
      map.length ≤ stored.length →
      ComplexMappedType.serialize ctor map stored =
        ((map.zip stored).mapM fun p =>
          specFieldEncoding ctor p.1.2 p.2).map List.flatten
  | [], stored, _ => by
    simp [ComplexMappedType.serialize, List.zip_nil_left]
    rfl
  | nt :: map, [], h => by simp at h
  | (nm, t) :: map, s :: stored, h => by
    simp only [List.length_cons, Nat.add_le_add_iff_right] at h
    simp only [ComplexMappedType.serialize, List.zip_cons_cons, List.mapM_cons]
    cases s with
    | inst t' v =>
      cases hs : t'.serialize v with
      | none => simp [specFieldEncoding, hs]
      | some b1 =>
        rw [cserialize_eq_spec ctor map stored h]
        cases hm : (map.zip stored).mapM
            (fun p => specFieldEncoding ctor p.1.2 p.2) with
        | none => simp [specFieldEncoding, hs, hm]
        | some bss => simp [specFieldEncoding, hs, hm, List.flatten_cons]
    | raw r =>
      cases hs : (ctor t r).bind t.serialize with
      | none => simp [specFieldEncoding, hs]
      | some b1 =>
        rw [cserialize_eq_spec ctor map stored h]
        cases hm : (map.zip stored).mapM
            (fun p => specFieldEncoding ctor p.1.2 p.2) with
        | none => simp [specFieldEncoding, hs, hm]
        | some bss => simp [specFieldEncoding, hs, hm, List.flatten_cons]

theorem cmeasure_nil (data : List Nat) :
    ComplexMappedType.measure [] data = 0 := rfl

theorem cmeasure_cons (nm : String) (t : PType)
    (map : List (String × PType)) (data : List Nat) :
    ComplexMappedType.measure ((nm, t) :: map) data =
      t.measure data +
        ComplexMappedType.measure map (data.drop (t.measure data)) := by
  unfold ComplexMappedType.measure
  simp only [List.map_cons, measLoop, List.drop_zero, Nat.zero_add]
  have := measLoop_shift (map.map fun nt => nt.2.measure) data
    (t.measure data) 0
  rw [Nat.add_zero] at this
  exact this

/-! ### Characterization of the array wire format (claim C5) -/

theorem array_serialize_eq (t : PType) (es : List PVal)
    (h : es.length ≤ 255) :
    (PType.array t).serialize (.varr es) =
      (es.mapM t.serialize).map fun bss => es.length :: bss.flatten := by
  simp only [PType.serialize]
  rw [if_pos (by omega)]

theorem measLoop_replicate_spec (f : List Nat → Nat) :
    ∀ (n : Nat) (d : List Nat) (off : Nat),
      measLoop (List.replicate n f) d off = specArrayMeasure f n d off
  | 0, d, off => rfl
  | n + 1, d, off => by
    simp only [List.replicate_succ, measLoop, specArrayMeasure]
    exact measLoop_replicate_spec f n d _

theorem array_measure_eq_spec (t : PType) (b : List Nat) :
    (PType.array t).measure b =
      specArrayMeasure t.measure (fromLE (b.take 1)) b 1 := by
  simp only [PType.measure]
  exact measLoop_replicate_spec t.measure _ b 1

/-! ### Array construction coercion (claim C6) -/

/-- Relation between a constructor input item and the stored element:
instances are kept unchanged, raw values are replaced by the coercion's
result. -/
def coercedOK {R : Type} (ctor : R → Option PVal) :
    ArrItem R → PVal → Prop
  | .inst w, v => v = w
  | .raw r, v => ctor r = some v

theorem arrayInit_ok_iff {R : Type} (T : PType) (ctor : R → Option PVal)
    (kindOf : R → String) :
    ∀ items : List (ArrItem R),
      (∃ out, Array.init T ctor kindOf items = .ok out) ↔
        ∀ r : R, ArrItem.raw r ∈ items → (ctor r).isSome = true := by
  intro items
  induction items with
  | nil =>
    constructor
    · intro _ r hr
      simp at hr
    · intro _
      exact ⟨[], rfl⟩
  | cons it items ih =>
    cases it with
    | inst v =>
      simp only [Array.init]
      constructor
      · intro ⟨out, hout⟩ r hr
        rcases List.mem_cons.mp hr with h | h
        · cases h
        · cases hrec : Array.init T ctor kindOf items with
          | error e => rw [hrec] at hout; simp [Except.map] at hout
          | ok out2 => exact (ih.mp ⟨out2, hrec⟩) r h
      · intro hall
        obtain ⟨out, hout⟩ := ih.mpr fun r hr =>
          hall r (List.mem_cons_of_mem _ hr)
        exact ⟨v :: out, by rw [hout]; rfl⟩
    | raw r0 =>
      simp only [Array.init]
      cases hc : ctor r0 with
      | none =>
        constructor
        · intro ⟨out, hout⟩
          simp at hout
        · intro hall
          have := hall r0 (List.mem_cons_self _ _)
          rw [hc] at this
          simp at this
      | some v =>
        constructor
        · intro ⟨out, hout⟩ r hr
          rcases List.mem_cons.mp hr with h | h
          · cases h
            simp [hc]
          · cases hrec : Array.init T ctor kindOf items with
            | error e => rw [hrec] at hout; simp [Except.map] at hout
            | ok out2 => exact (ih.mp ⟨out2, hrec⟩) r h
        · intro hall
          obtain ⟨out, hout⟩ := ih.mpr fun r hr =>
            hall r (List.mem_cons_of_mem _ hr)
          exact ⟨v :: out, by rw [hout]; rfl⟩

theorem arrayInit_ok_shape {R : Type} (T : PType) (ctor : R → Option PVal)
    (kindOf : R → String) :
    ∀ (items : List (ArrItem R)) (out : List PVal),
      Array.init T ctor kindOf items = .ok out →
      List.Forall₂ (coercedOK ctor) items out := by
  intro items
  induction items with
  | nil =>
    intro out hout
    simp only [Array.init, Except.ok.injEq] at hout
    subst hout
    constructor
  | cons it items ih =>
    intro out hout
    cases it with
    | inst v =>
      simp only [Array.init] at hout
      cases hrec : Array.init T ctor kindOf items with
      | error e => rw [hrec] at hout; simp [Except.map] at hout
      | ok out2 =>
        rw [hrec] at hout
        simp only [Except.map, Except.ok.injEq] at hout
        subst hout
        exact List.Forall₂.cons rfl (ih out2 hrec)
    | raw r0 =>
      simp only [Array.init] at hout
      cases hc : ctor r0 with
      | none => rw [hc] at hout; simp at hout
      | some v =>
        rw [hc] at hout
        cases hrec : Array.init T ctor kindOf items with
        | error e => rw [hrec] at hout; simp [Except.map] at hout
        | ok out2 =>
          rw [hrec] at hout
          simp only [Except.map, Except.ok.injEq] at hout
          subst hout
          exact List.Forall₂.cons hc (ih out2 hrec)

theorem arrayInit_error_shape {R : Type} (T : PType) (ctor : R → Option PVal)
    (kindOf : R → String) :
    ∀ (items : List (ArrItem R)) (err : PType × String),
      Array.init T ctor kindOf items = .error err →
      ∃ r : R, ArrItem.raw r ∈ items ∧ ctor r = none ∧
        err = (T, kindOf r) := by
  intro items
  induction items with
  | nil =>
    intro err herr
    simp [Array.init] at herr
  | cons it items ih =>
    intro err herr
    cases it with
    | inst v =>
      simp only [Array.init] at herr
      cases hrec : Array.init T ctor kindOf items with
      | error e =>
        rw [hrec] at herr
        simp only [Except.map, Except.error.injEq] at herr
        subst herr
        obtain ⟨r, hr, hc, he⟩ := ih e hrec
        exact ⟨r, List.mem_cons_of_mem _ hr, hc, he⟩
      | ok out2 => rw [hrec] at herr; simp [Except.map] at herr
    | raw r0 =>
      simp only [Array.init] at herr
      cases hc : ctor r0 with
      | none =>
        rw [hc] at herr
        simp only [Except.error.injEq] at herr
        exact ⟨r0, List.mem_cons_self _ _, hc, herr.symm⟩
      | some v =>
        rw [hc] at herr
        cases hrec : Array.init T ctor kindOf items with
        | error e =>
          rw [hrec] at herr
          simp only [Except.map, Except.error.injEq] at herr
          subst herr
          obtain ⟨r, hr, hc2, he⟩ := ih e hrec
          exact ⟨r, List.mem_cons_of_mem _ hr, hc2, he⟩
        | ok out2 => rw [hrec] at herr; simp [Except.map] at herr

/-! ### String of 65536 letters (claim C8) -/

theorem utf8Encode_replicate_a :
    ∀ n : Nat, utf8Encode (List.replicate n 97) = some (List.replicate n 97)
  | 0 => rfl
  | n + 1 => by
    rw [List.replicate_succ]
    simp only [utf8Encode]
    rw [if_pos (by simp [validScalar]), utf8Encode_replicate_a n]
    simp only [Option.map_some']
    rw [show utf8EncodeChar 97 = [97] by simp [utf8EncodeChar]]
    rfl

/-! ## Claim theorems -/

/-- C4: for every composite mapped type, serialize produces exactly the
concatenation, in field-map order, of each field's own encoding (an already
primitive instance is encoded by its own class, otherwise the declared field
type is constructed from the raw value first), and measure sums each
field's measure on the progressively offset buffer; concretely a composite
with fields (a : UInt8, b : String) and values (5, "ok") serializes to
0x05 0x02 0x00 'o' 'k' and measuring that buffer plus trailing junk gives
1+2+2 = 5. -/
theorem c4_composite_serialize_measure :
    (∀ (R : Type) (ctor : PType → R → Option PVal)
      (map : List (String × PType)) (stored : List (FieldStored R)),
      map.length ≤ stored.length →
      ComplexMappedType.serialize ctor map stored =
        ((map.zip stored).mapM fun p =>
          specFieldEncoding ctor p.1.2 p.2).map List.flatten) ∧
    (∀ (nm : String) (t : PType) (map : List (String × PType))
      (data : List Nat),
      ComplexMappedType.measure ((nm, t) :: map) data =
        t.measure data +
          ComplexMappedType.measure map (data.drop (t.measure data))) ∧
    (∀ data : List Nat, ComplexMappedType.measure [] data = 0) ∧
    (ComplexMappedType.serialize deadCtor
        [("a", PType.uint8), ("b", PType.str)]
        (instFieldsOf [("a", PType.uint8), ("b", PType.str)]
          [.vint 5, .vstr [111, 107]]) = some [5, 2, 0, 111, 107]) ∧
    (ComplexMappedType.measure [("a", PType.uint8), ("b", PType.str)]
        ([5, 2, 0, 111, 107] ++ [9, 9, 9]) = 5) := by
  refine ⟨fun R ctor map stored h => cserialize_eq_spec ctor map stored h,
    cmeasure_cons, cmeasure_nil, ?_, ?_⟩
  · simp [ComplexMappedType.serialize, instFieldsOf, PType.serialize,
      serUInt, toLE, utf8Encode, utf8EncodeChar, validScalar]
  · simp [ComplexMappedType.measure, measLoop, PType.measure, fromLE]

/-- Witness for C4: the serialize characterization applied to a concrete
one-field composite. -/
theorem c4_composite_serialize_measure_witness :
    ComplexMappedType.serialize deadCtor [("a", PType.uint8)]
        [FieldStored.inst PType.uint8 (.vint 5)] =
      (([("a", PType.uint8)].zip
          [FieldStored.inst PType.uint8 (.vint 5)]).mapM fun p =>
        specFieldEncoding deadCtor p.1.2 p.2).map List.flatten :=
  c4_composite_serialize_measure.1 Empty deadCtor [("a", PType.uint8)]
    [FieldStored.inst PType.uint8 (.vint 5)] (by simp)

/-- C5: Array-of-T serialize is the 1-byte element count followed by each
element's own encoding in order (failing past 255 elements, outside this
statement's hypothesis), and Array-of-T measure reads the 1-byte count and
then repeatedly adds the element measure of the remaining buffer without
decoding element values; concretely Array[UInt8]([1,2,3]) serializes to
0x03 0x01 0x02 0x03. -/
theorem c5_array_wire :
    (∀ (t : PType) (es : List PVal), es.length ≤ 255 →
      (PType.array t).serialize (.varr es) =
        (es.mapM t.serialize).map fun bss => es.length :: bss.flatten) ∧
    (∀ (t : PType) (b : List Nat),
      (PType.array t).measure b =
        specArrayMeasure t.measure (fromLE (b.take 1)) b 1) ∧
    ((PType.array PType.uint8).serialize (.varr [.vint 1, .vint 2, .vint 3]) =
      some [3, 1, 2, 3]) := by
  refine ⟨array_serialize_eq, array_measure_eq_spec, ?_⟩
  simp only [PType.serialize]
  rw [if_pos (by norm_num), List.mapM_cons, List.mapM_cons, List.mapM_cons]
  have h1 : PType.uint8.serialize (PVal.vint 1) = some [1] := by
    simp [PType.serialize, serUInt, toLE]
  have h2 : PType.uint8.serialize (PVal.vint 2) = some [2] := by
    simp [PType.serialize, serUInt, toLE]
  have h3 : PType.uint8.serialize (PVal.vint 3) = some [3] := by
    simp [PType.serialize, serUInt, toLE]
  rw [h1, h2, h3]
  rfl

/-- Witness for C5: the serialize characterization applied to a concrete
one-element array. -/
theorem c5_array_wire_witness :
    (PType.array PType.uint8).serialize (.varr [.vint 1]) =
      ([PVal.vint 1].mapM PType.uint8.serialize).map
        fun bss => [PVal.vint 1].length :: bss.flatten :=
  c5_array_wire.1 PType.uint8 [.vint 1] (by simp)

/-- C6: constructing an Array coerces every element that is not already an
instance of the element type by applying the element type's constructor,
keeps instances unchanged, and fails with a type error naming the expected
type and the received kind exactly when some element cannot be coerced. -/
theorem c6_array_coercion :
    (∀ (R : Type) (T : PType) (ctor : R → Option PVal)
      (kindOf : R → String) (items : List (ArrItem R)),
      (∃ out, Array.init T ctor kindOf items = .ok out) ↔
        ∀ r : R, ArrItem.raw r ∈ items → (ctor r).isSome = true) ∧
    (∀ (R : Type) (T : PType) (ctor : R → Option PVal)
      (kindOf : R → String) (items : List (ArrItem R)) (out : List PVal),
      Array.init T ctor kindOf items = .ok out →
      List.Forall₂ (coercedOK ctor) items out) ∧
    (∀ (R : Type) (T : PType) (ctor : R → Option PVal)
      (kindOf : R → String) (items : List (ArrItem R)) (err : PType × String),
      Array.init T ctor kindOf items = .error err →
      ∃ r : R, ArrItem.raw r ∈ items ∧ ctor r = none ∧
        err = (T, kindOf r)) :=
  ⟨fun _ T ctor kindOf items => arrayInit_ok_iff T ctor kindOf items,
   fun _ T ctor kindOf items out h =>
     arrayInit_ok_shape T ctor kindOf items out h,
   fun _ T ctor kindOf items err h =>
     arrayInit_error_shape T ctor kindOf items err h⟩

/-- Witness for C6: a concrete coercion run (an instance kept, a raw value
coerced) and a concrete failing run naming the expected and received kinds. -/
theorem c6_array_coercion_witness :
    List.Forall₂ (coercedOK (fun n : Nat => if n < 256 then some (.vint n)
        else none))
      [ArrItem.inst (.vint 1), ArrItem.raw 7]
      [PVal.vint 1, PVal.vint 7] ∧
    (∃ r : Nat, ArrItem.raw r ∈ ([ArrItem.raw 999] : List (ArrItem Nat)) ∧
      (if r < 256 then some (PVal.vint r) else none) = none ∧
      (PType.int32, "int") = (PType.int32, (fun _ : Nat => "int") r)) := by
  constructor
  · exact c6_array_coercion.2.1 Nat PType.int32
      (fun n => if n < 256 then some (.vint n) else none) (fun _ => "int")
      [ArrItem.inst (.vint 1), ArrItem.raw 7] [PVal.vint 1, PVal.vint 7]
      (by simp [Array.init, Except.map])
  · exact c6_array_coercion.2.2 Nat PType.int32
      (fun n => if n < 256 then some (.vint n) else none) (fun _ => "int")
      [ArrItem.raw 999] (PType.int32, "int")
      (by simp [Array.init])

/-- C9: two composite values satisfying the mapped-type contract compare
equal exactly when every field named in the field map compares equal
between them (with Python ==), and attributes outside the field map never
affect the comparison. -/
theorem c9_structural_equality :
    (∀ (map : List String) (a b : String → PVal),
      ComplexDataType.eq map a b = true ↔
        ∀ n ∈ map, pvalEq (a n) (b n) = true) ∧
    (∀ (map : List String) (a a2 b : String → PVal),
      (∀ n ∈ map, a2 n = a n) →
      ComplexDataType.eq map a2 b = ComplexDataType.eq map a b) ∧
    (∀ (map : List String) (a b b2 : String → PVal),
      (∀ n ∈ map, b2 n = b n) →
      ComplexDataType.eq map a b2 = ComplexDataType.eq map a b) := by
  refine ⟨?_, ?_, ?_⟩
  · intro map a b
    simp [ComplexDataType.eq, List.all_eq_true]
  · intro map a a2 b h
    unfold ComplexDataType.eq
    induction map with
    | nil => rfl
    | cons n map ih =>
      simp only [List.all_cons]
      rw [h n (List.mem_cons_self _ _),
        ih fun x hx => h x (List.mem_cons_of_mem _ hx)]
  · intro map a b b2 h
    unfold ComplexDataType.eq
    induction map with
    | nil => rfl
    | cons n map ih =>
      simp only [List.all_cons]
      rw [h n (List.mem_cons_self _ _),
        ih fun x hx => h x (List.mem_cons_of_mem _ hx)]

/-- Witness for C9: two instances with equal mapped field values but a
differing unrelated attribute compare the same as equal-attribute
instances. -/
theorem c9_structural_equality_witness :
    ComplexDataType.eq ["x"]
        (fun n => if n = "x" then PVal.vint 1 else PVal.vint 9)
        (fun _ => PVal.vint 1) =
      ComplexDataType.eq ["x"] (fun _ => PVal.vint 1)
        (fun _ => PVal.vint 1) :=
  c9_structural_equality.2.1 ["x"] (fun _ => PVal.vint 1)
    (fun n => if n = "x" then PVal.vint 1 else PVal.vint 9)
    (fun _ => PVal.vint 1)
    (by intro n hn; simp at hn; subst hn; simp)

/-- C10: the Array.pop override removes the element at the (possibly
negative, Python-normalized) index from the list, but returns Python None
(the base list.pop's removed-element return value is discarded) rather than
the removed element. -/
theorem c10_pop_returns_none (l : List PVal) (idx j : Int)
    (hj : j = if idx < 0 then (l.length : Int) + idx else idx)
    (h0 : 0 ≤ j) (h1 : j < (l.length : Int)) :
    KProto.Array.pop l idx = some (none, l.eraseIdx j.toNat) ∧
      (l.eraseIdx j.toNat).length + 1 = l.length := by
  have hjn : j.toNat < l.length := by omega
  constructor
  · unfold KProto.Array.pop
    rw [← hj, if_pos ⟨h0, h1⟩, List.eraseIdx_eq_take_drop_succ]
  · exact List.length_eraseIdx_add_one hjn

/-- Witness for C10: popping index -1 from a two-element array removes the
last element and returns None. -/
theorem c10_pop_returns_none_witness :
    KProto.Array.pop [PVal.vint 1, PVal.vint 2] (-1) =
        some (none, [PVal.vint 1]) ∧
      ([PVal.vint 1] : List PVal).length + 1 =
        ([PVal.vint 1, PVal.vint 2] : List PVal).length := by
  have h := c10_pop_returns_none [PVal.vint 1, PVal.vint 2] (-1) 1
    (by norm_num) (by norm_num) (by norm_num)
  simpa using h

/-- C1 (amended): deserialize of serialize gives back a Python-equal value
for every primitive type and well-formed value, and for composites with
instance-stored, type-conforming field values — provided every reachable
Char is a single character with a one-byte UTF-8 encoding, no reachable
float is NaN, Boolean appears under an Array only if the array has at most
one element, and a Boolean composite field is only in final position
(`rtOK` / `noMidBool`; Boolean.deserialize reads the whole remaining
buffer, so a Boolean decoded before trailing data yields a wrong value). -/
theorem c1_roundtrip_amended :
    (∀ (t : PType) (v : PVal), pwf t v = true → rtOK t v = true →
      (t.serialize v).bind t.deserialize = some v ∧ pvalEq v v = true) ∧
    (∀ (map : List (String × PType)) (vs : List PVal) (bs : List Nat),
      cfieldsOK map vs = true → noMidBool map = true →
      ComplexMappedType.serialize deadCtor map (instFieldsOf map vs) =
        some bs →
      ComplexMappedType.deserialize map bs = some vs ∧
        vs.all (fun v => pvalEq v v) = true) := by
  constructor
  · intro t v hwf hrt
    obtain ⟨bs, hser, hdes, _⟩ := roundtrip_main t v hwf hrt
    constructor
    · rw [hser, Option.some_bind]
      exact hdes
    · exact pvalEq_refl t v hwf hrt
  · intro map vs bs hok hmid hser
    exact ⟨croundtrip map vs bs hok hmid hser, cfields_pvalEq map vs hok⟩

/-- Counterexample for C1 as stated: round trips that change the value on
well-formed inputs.  A Char holding 'é' (U+00E9) serializes to its 2-byte
UTF-8 form but deserializes from the first byte only, giving 'Ã' (U+00C3);
a Char holding "ab" comes back as "a"; a half-precision NaN comes back as a
bit-identical NaN that Python == rejects; an Array[Boolean] of two true
values decodes its first element from both remaining bytes, giving 257. -/
theorem c1_counterexample :
    (pwf PType.char (.vstr [0xE9]) = true ∧
      (PType.char.serialize (.vstr [0xE9])).bind PType.char.deserialize =
        some (.vstr [0xC3]) ∧
      pvalEq (.vstr [0xC3]) (.vstr [0xE9]) = false) ∧
    (pwf PType.char (.vstr [97, 98]) = true ∧
      (PType.char.serialize (.vstr [97, 98])).bind PType.char.deserialize =
        some (.vstr [97]) ∧
      pvalEq (.vstr [97]) (.vstr [97, 98]) = false) ∧
    (pwf PType.e (.vflt 2 0x7E00) = true ∧
      (PType.e.serialize (.vflt 2 0x7E00)).bind PType.e.deserialize =
        some (.vflt 2 0x7E00) ∧
      pvalEq (.vflt 2 0x7E00) (.vflt 2 0x7E00) = false) ∧
    (pwf (PType.array PType.boolean) (.varr [.vint 1, .vint 1]) = true ∧
      ((PType.array PType.boolean).serialize
          (.varr [.vint 1, .vint 1])).bind
        (PType.array PType.boolean).deserialize =
        some (.varr [.vint 257, .vint 1]) ∧
      pvalEq (.varr [.vint 257, .vint 1]) (.varr [.vint 1, .vint 1]) =
        false) := by
  refine ⟨⟨?_, ?_, ?_⟩, ⟨?_, ?_, ?_⟩, ⟨?_, ?_, ?_⟩, ⟨?_, ?_, ?_⟩⟩
  · simp [pwf, validScalar]
  · simp [PType.serialize, PType.deserialize, validScalar, utf8EncodeChar]
  · simp [pvalEq]
  · simp [pwf, validScalar]
  · simp [PType.serialize, PType.deserialize, validScalar, utf8EncodeChar]
  · simp [pvalEq]
  · simp [pwf]
  · simp [PType.serialize, PType.deserialize, serFlt, deserFlt, toLE, fromLE]
  · simp [pvalEq, isNaNPat, fracBits, expBits]
  · simp [pwf]
  · have hb1 : PType.boolean.serialize (PVal.vint 1) = some [1] := by
      simp [PType.serialize, serUInt, toLE]
    have hs : (PType.array PType.boolean).serialize
        (.varr [.vint 1, .vint 1]) = some [2, 1, 1] := by
      simp only [PType.serialize]
      rw [if_pos (by norm_num), List.mapM_cons, List.mapM_cons, hb1]
      rfl
    have hd : (PType.array PType.boolean).deserialize [2, 1, 1] =
        some (.varr [.vint 257, .vint 1]) := by
      simp [PType.deserialize, PType.measure, measLoop, deserLoop, fromLE]
    rw [hs, Option.some_bind, hd]
  · simp [pvalEq]

/-- Witness for C1: the uint16 round trip at 300 and a one-field composite
round trip at (a : UInt8) = 5. -/
theorem c1_roundtrip_amended_witness :
    ((PType.uint16.serialize (.vint 300)).bind PType.uint16.deserialize =
        some (.vint 300) ∧ pvalEq (.vint 300) (.vint 300) = true) ∧
    (ComplexMappedType.deserialize [("a", PType.uint8)] [5] =
        some [PVal.vint 5] ∧
      ([PVal.vint 5] : List PVal).all (fun v => pvalEq v v) = true) :=
  ⟨c1_roundtrip_amended.1 PType.uint16 (.vint 300) (by simp [pwf])
      (by simp [rtOK]),
   c1_roundtrip_amended.2 [("a", PType.uint8)] [PVal.vint 5] [5]
      (by simp [cfieldsOK, pwf, rtOK]) (by simp [noMidBool])
      (by simp [ComplexMappedType.serialize, instFieldsOf, PType.serialize,
        serUInt, toLE])⟩

/-- C2 (amended): the measure of a serialization with any trailing garbage
is exactly the serialization's length, for every primitive type and
well-formed value and for composites with instance-stored, type-conforming
field values — provided every reachable Char has a leading character whose
UTF-8 encoding is a single byte (`asciiOK`; Char.measure always reports
1). -/
theorem c2_measure_amended :
    (∀ (t : PType) (v : PVal) (bs : List Nat), pwf t v = true →
      asciiOK t v = true → t.serialize v = some bs →
      ∀ g, t.measure (bs ++ g) = bs.length) ∧
    (∀ (map : List (String × PType)) (vs : List PVal) (bs : List Nat),
      cfieldsAsciiOK map vs = true →
      ComplexMappedType.serialize deadCtor map (instFieldsOf map vs) =
        some bs →
      ∀ g, ComplexMappedType.measure map (bs ++ g) = bs.length) :=
  ⟨measure_serialize, cmeasure_serialize⟩

/-- Counterexample for C2 as stated: the well-formed Char 'é' serializes to
two bytes but Char.measure reports 1 on those bytes plus garbage. -/
theorem c2_counterexample :
    pwf PType.char (.vstr [0xE9]) = true ∧
    PType.char.serialize (.vstr [0xE9]) = some [0xC3, 0xA9] ∧
    PType.char.measure ([0xC3, 0xA9] ++ [7]) ≠
      ([0xC3, 0xA9] : List Nat).length := by
  refine ⟨by simp [pwf, validScalar], ?_, ?_⟩
  · simp [PType.serialize, validScalar, utf8EncodeChar]
  · simp [PType.measure]

/-- Witness for C2: measuring the uint16 serialization of 300 plus a
garbage byte returns its length 2. -/
theorem c2_measure_amended_witness :
    PType.uint16.measure ([44, 1] ++ [255]) = ([44, 1] : List Nat).length :=
  c2_measure_amended.1 PType.uint16 (.vint 300) [44, 1] (by simp [pwf])
    (by simp [asciiOK])
    (by simp [PType.serialize, serUInt, toLE]) [255]

/-- C3 (amended): for every primitive type other than Boolean, and for
composites, deserializing a buffer at least as long as its measure gives
the same value as deserializing only the first measure-many bytes —
trailing bytes are ignored; Boolean.deserialize instead reads the whole
buffer.  In particular UInt16 deserializes 0x2C 0x01 0xFF to 300. -/
theorem c3_trailing_amended :
    (∀ t : PType, t ≠ PType.boolean → ∀ b : List Nat,
      t.measure b ≤ b.length →
      t.deserialize b = t.deserialize (b.take (t.measure b))) ∧
    (∀ (map : List (String × PType)) (b : List Nat),
      ComplexMappedType.measure map b ≤ b.length →
      ComplexMappedType.deserialize map b =
        ComplexMappedType.deserialize map
          (b.take (ComplexMappedType.measure map b))) ∧
    PType.uint16.deserialize [0x2C, 0x01, 0xFF] = some (.vint 300) := by
  refine ⟨fun t ht b _ => (deserialize_take t ht b).symm,
    fun map b _ => (cdeserialize_take map b).symm, ?_⟩
  simp [PType.deserialize, fromLE]

/-- Counterexample for C3 as stated: Boolean.deserialize reads the entire
buffer, so on 0x01 0x01 (measure 1, length 2) it returns 257 while the
measured prefix decodes to 1. -/
theorem c3_counterexample :
    PType.boolean.measure [1, 1] = 1 ∧
    PType.boolean.measure [1, 1] ≤ ([1, 1] : List Nat).length ∧
    PType.boolean.deserialize [1, 1] = some (.vint 257) ∧
    PType.boolean.deserialize
        (([1, 1] : List Nat).take (PType.boolean.measure [1, 1])) =
      some (.vint 1) ∧
    PType.boolean.deserialize [1, 1] ≠
      PType.boolean.deserialize
        (([1, 1] : List Nat).take (PType.boolean.measure [1, 1])) := by
  refine ⟨by simp [PType.measure], by simp [PType.measure], ?_, ?_, ?_⟩
  · simp [PType.deserialize, fromLE]
  · simp [PType.measure, PType.deserialize, fromLE]
  · simp [PType.measure, PType.deserialize, fromLE]

/-- Witness for C3: trailing-byte insensitivity of UInt16 on the concrete
buffer 0x2C 0x01 0xFF. -/
theorem c3_trailing_amended_witness :
    PType.uint16.deserialize [0x2C, 0x01, 0xFF] =
      PType.uint16.deserialize
        (([0x2C, 0x01, 0xFF] : List Nat).take
          (PType.uint16.measure [0x2C, 0x01, 0xFF])) :=
  c3_trailing_amended.1 PType.uint16 (by simp) [0x2C, 0x01, 0xFF]
    (by simp [PType.measure])

theorem deserLoop_total
    (fs : List ((List Nat → Option PVal) × (List Nat → Nat)))
    (h : ∀ p ∈ fs, ∀ d : List Nat,
      ((p.1 : List Nat → Option PVal) d).isSome = true) :
    ∀ (data : List Nat) (off : Nat), (deserLoop fs data off).isSome = true := by
  induction fs with
  | nil => intro data off; rfl
  | cons p fs ih =>
    intro data off
    obtain ⟨df, mf⟩ := p
    simp only [deserLoop]
    have h1 : (df (data.drop off)).isSome = true :=
      h (df, mf) (List.mem_cons_self _ _) (data.drop off)
    cases hdf : df (data.drop off) with
    | none => rw [hdf] at h1; simp at h1
    | some v =>
      have h2 := ih (fun q hq => h q (List.mem_cons_of_mem _ hq)) data
        (off + mf (data.drop off))
      cases hdl : deserLoop fs data (off + mf (data.drop off)) with
      | none => rw [hdl] at h2; simp at h2
      | some vs => rfl

/-- C7 (amended): on buffers strictly shorter than the type requires,
failure is per type rather than universal: the float types' deserialize
always fails (struct.unpack on a short slice), Char's deserialize fails
exactly on the empty buffer, the integer types and Boolean never fail and
decode a default value from the short buffer (Int8.deserialize of the
empty buffer is 0), String's deserialize fails exactly when the slice it
measures off the buffer is not valid UTF-8 — silently returning the
truncated text otherwise — and Array's deserialize never fails when its
element type's deserialize never fails (missing elements decode from empty
buffers) but propagates element failures otherwise; measure is a total
function on every type and in particular returns on short buffers. -/
theorem c7_short_buffer_amended :
    (∀ b : List Nat, b.length < 2 → PType.e.deserialize b = none) ∧
    (∀ b : List Nat, b.length < 4 → PType.float.deserialize b = none) ∧
    (∀ b : List Nat, b.length < 8 → PType.double.deserialize b = none) ∧
    (∀ b : List Nat, PType.char.deserialize b = none ↔ b = []) ∧
    (∀ b : List Nat,
      (PType.int8.deserialize b).isSome = true ∧
      (PType.int16.deserialize b).isSome = true ∧
      (PType.int32.deserialize b).isSome = true ∧
      (PType.int64.deserialize b).isSome = true ∧
      (PType.uint8.deserialize b).isSome = true ∧
      (PType.uint16.deserialize b).isSome = true ∧
      (PType.uint32.deserialize b).isSome = true ∧
      (PType.uint64.deserialize b).isSome = true ∧
      (PType.boolean.deserialize b).isSome = true) ∧
    (PType.int8.deserialize [] = some (.vint 0)) ∧
    (∀ b : List Nat, PType.str.deserialize b = none ↔
      utf8Decode ((b.take (PType.str.measure b)).drop 2) = none) ∧
    (PType.str.deserialize [5, 0, 97, 98] = some (.vstr [97, 98])) ∧
    (PType.str.deserialize [5, 0, 0xC3] = none) ∧
    (∀ t : PType, (∀ d : List Nat, (t.deserialize d).isSome = true) →
      ∀ b : List Nat, ((PType.array t).deserialize b).isSome = true) ∧
    ((PType.array PType.uint8).deserialize [3, 1] =
      some (.varr [.vint 1, .vint 0, .vint 0])) ∧
    (PType.e.deserialize [1] = none ∧
      (PType.array PType.e).deserialize [1, 1] = none) ∧
    (PType.str.measure [5] = 7) ∧
    ((PType.array PType.uint8).measure [3, 1] = 4) := by
  refine ⟨?_, ?_, ?_, ?_, ?_, ?_, ?_, ?_, ?_, ?_, ?_, ?_, ?_, ?_⟩
  · intro b hb
    simp [PType.deserialize, deserFlt, hb]
  · intro b hb
    simp [PType.deserialize, deserFlt, hb]
  · intro b hb
    simp [PType.deserialize, deserFlt, hb]
  · intro b
    cases b with
    | nil => simp [PType.deserialize]
    | cons c cs => simp [PType.deserialize]
  · intro b
    refine ⟨?_, ?_, ?_, ?_, ?_, ?_, ?_, ?_, ?_⟩ <;>
      simp [PType.deserialize]
  · simp [PType.deserialize, sfromLE, fromLE]
  · intro b
    simp only [PType.deserialize]
    exact Option.map_eq_none'
  · simp [PType.deserialize, PType.measure, fromLE, utf8Decode]
  · simp [PType.deserialize, PType.measure, fromLE, utf8Decode, utf8Dec2]
  · intro t ht b
    have hmap : ∀ (o : Option (List PVal)), o.isSome = true →
        (o.map PVal.varr).isSome = true := by
      intro o ho
      cases o with
      | none => simp at ho
      | some vs => rfl
    simp only [PType.deserialize]
    refine hmap _ (deserLoop_total _ ?_ _ _)
    intro p hp d
    have := List.eq_of_mem_replicate hp
    subst this
    exact ht d
  · simp [PType.deserialize, PType.measure, fromLE, measLoop, deserLoop,
      List.replicate]
  · constructor
    · simp [PType.deserialize, deserFlt]
    · simp [PType.deserialize, PType.measure, fromLE, measLoop, deserLoop,
        deserFlt, List.replicate]
  · simp [PType.measure, fromLE]
  · simp [PType.measure, fromLE, measLoop, List.replicate]

/-- Counterexample for C7 as stated: deserialize does NOT fail on buffers
strictly shorter than the type requires for Int8 (Python from_bytes accepts
a short slice, returning 0 on empty) or String (the slice is silently
truncated), the very examples the claim names. -/
theorem c7_counterexample :
    PType.int8.measure [] = 1 ∧ ([] : List Nat).length < 1 ∧
    PType.int8.deserialize [] = some (.vint 0) ∧
    PType.str.measure [5, 0, 97, 98] = 7 ∧
    ([5, 0, 97, 98] : List Nat).length < 7 ∧
    PType.str.deserialize [5, 0, 97, 98] = some (.vstr [97, 98]) := by
  refine ⟨by simp [PType.measure], by simp, ?_, ?_, by simp, ?_⟩
  · simp [PType.deserialize, sfromLE, fromLE]
  · simp [PType.measure, fromLE]
  · simp [PType.deserialize, PType.measure, fromLE, utf8Decode]

/-- Witness for C7: the short-buffer clauses applied to concrete buffers,
including the total-element-type Array clause at Array[UInt8]. -/
theorem c7_short_buffer_amended_witness :
    PType.e.deserialize [0x66] = none ∧
    PType.float.deserialize [1, 2] = none ∧
    PType.double.deserialize [1, 2, 3] = none ∧
    ((PType.array PType.uint8).deserialize [3, 1]).isSome = true ∧
    (PType.int8.deserialize [7]).isSome = true :=
  ⟨c7_short_buffer_amended.1 [0x66] (by simp),
    c7_short_buffer_amended.2.1 [1, 2] (by simp),
    c7_short_buffer_amended.2.2.1 [1, 2, 3] (by simp),
    c7_short_buffer_amended.2.2.2.2.2.2.2.2.2.1 PType.uint8
      (fun d => by simp [PType.deserialize]) [3, 1],
    (c7_short_buffer_amended.2.2.2.2.1 [7]).1⟩

theorem str_overflow_none (cps enc : List Nat)
    (henc : utf8Encode cps = some enc) (hlen : 65536 ≤ enc.length) :
    PType.str.serialize (.vstr cps) = none := by
  simp only [PType.serialize]
  rw [henc]
  simp only [Option.some_bind]
  rw [if_neg (by omega)]

theorem array_overflow_none (t : PType) (es : List PVal)
    (hlen : 256 ≤ es.length) :
    (PType.array t).serialize (.varr es) = none := by
  simp only [PType.serialize]
  rw [if_neg (by omega)]

/-- C8 (amended): serializing a String whose UTF-8 form needs at least
65536 bytes raises an OverflowError from the 2-byte length header (no wire
value is produced, nothing wraps silently), and serializing an Array with
at least 256 elements raises an OverflowError from the 1-byte count header
(again, no wrapped wire value). -/
theorem c8_overflow_amended :
    (∀ (cps enc : List Nat), utf8Encode cps = some enc →
      65536 ≤ enc.length → PType.str.serialize (.vstr cps) = none) ∧
    (∀ (t : PType) (es : List PVal), 256 ≤ es.length →
      (PType.array t).serialize (.varr es) = none) :=
  ⟨str_overflow_none, array_overflow_none⟩

/-- Counterexample for C8 as stated: neither header wraps silently — no
wire value exists for a 65536-character string or a 256-element array;
serialization raises instead. -/
theorem c8_counterexample :
    ¬(∃ bs, PType.str.serialize (.vstr (List.replicate 65536 97)) =
      some bs) ∧
    ¬(∃ bs, (PType.array PType.uint8).serialize
      (.varr (List.replicate 256 (.vint 1))) = some bs) := by
  constructor
  · rintro ⟨bs, hbs⟩
    have hnone : PType.str.serialize (.vstr (List.replicate 65536 97)) =
        none :=
      str_overflow_none _ _ (utf8Encode_replicate_a 65536)
        (by simp only [List.length_replicate]; omega)
    rw [hnone] at hbs
    cases hbs
  · rintro ⟨bs, hbs⟩
    have hnone : (PType.array PType.uint8).serialize
        (.varr (List.replicate 256 (.vint 1))) = none :=
      array_overflow_none PType.uint8 _
        (by simp only [List.length_replicate]; omega)
    rw [hnone] at hbs
    cases hbs

/-- Witness for C8: the overflow clauses at a 65536-character string and a
256-element array. -/
theorem c8_overflow_amended_witness :
    PType.str.serialize (.vstr (List.replicate 65536 97)) = none ∧
    (PType.array PType.uint8).serialize
      (.varr (List.replicate 256 (.vint 1))) = none :=
  ⟨c8_overflow_amended.1 _ _ (utf8Encode_replicate_a 65536)
      (by simp only [List.length_replicate]; omega),
   c8_overflow_amended.2 PType.uint8 _
      (by simp only [List.length_replicate]; omega)⟩

end KProto
